import Mathlib

/-!
Verification of the `HybridSpaceManager` from `Masskill_OS_final.py`.

The manager keeps a dual view of a fixed-size block device:
a bitmap (`0` = free, `1` = allocated) and a singly-linked list of free
extents `(start, size)` kept in ascending order of `start`.  The Python
linked list (`FreeExtent` records chained through `next`) is embedded as a
`List FreeExtent`; Python integers are embedded as `Int`.

Every definition below is a direct transcription of the corresponding
Python method; the bitmap `for i in range(start, start + n)` loops are
rendered as index-recursive functions over the list, which agree with the
Python loops because the preceding range checks guarantee that every index
the loop touches is inside the list.
-/

/-- The payload of a Python `FreeExtent` node (`start`, `size`); the `next`
pointer is represented by the enclosing `List`. -/
structure FreeExtent where
  start : Int
  size : Int
deriving DecidableEq

/-- `for i in range(s, e): bitmap[i] = v`, walking the list with `i` the
index of the current head.  Indices outside the list are untouched (the
range checks of allocate/deallocate keep the Python loop in bounds). -/
def setRangeAux (v s e : Int) : List Int → Int → List Int
  | [], _ => []
  | x :: rest, i => (if s ≤ i ∧ i < e then v else x) :: setRangeAux v s e rest (i + 1)

/-- Write `v` at every index of `[s, e)` of the bitmap. -/
def setRange (v s e : Int) (b : List Int) : List Int := setRangeAux v s e b 0

/-- `any(bitmap[i] == 1 for i in range(s, e))`, the occupancy check of
`allocate`, again walking the list with an explicit index. -/
def anyAllocAux (s e : Int) : List Int → Int → Bool
  | [], _ => false
  | x :: rest, i => (decide (s ≤ i ∧ i < e) && (x == 1)) || anyAllocAux s e rest (i + 1)

/-- `True` iff some block of `[s, e)` is marked `1` in the bitmap. -/
def anyAllocated (b : List Int) (s e : Int) : Bool := anyAllocAux s e b 0

/-- The `while current:` loop of `allocate`: find the first extent with
`current.start <= start and current.start + current.size >= start + n` and
rewrite it (remove / trim front / trim back / split); later nodes are kept
unchanged once the loop `break`s. -/
def allocRemove (s n : Int) : List FreeExtent → List FreeExtent
  | [] => []
  | e :: rest =>
    if e.start ≤ s ∧ s + n ≤ e.start + e.size then
      if e.start = s ∧ e.size = n then rest
      else if e.start = s then ⟨e.start + n, e.size - n⟩ :: rest
      else if e.start + e.size = s + n then ⟨e.start, e.size - n⟩ :: rest
      else ⟨e.start, s - e.start⟩ :: ⟨s + n, e.start + e.size - s - n⟩ :: rest
    else e :: allocRemove s n rest

/-- `deallocate`'s "merge with next if adjacent": the candidate extent
`(s, n)` absorbs the node at the insertion point when that node starts at
`s + n`; returns the (possibly grown) candidate and the tail after it. -/
def deallocMergeNext (s n : Int) : List FreeExtent → FreeExtent × List FreeExtent
  | [] => (⟨s, n⟩, [])
  | c :: cs => if c.start = s + n then (⟨s, n + c.size⟩, cs) else (⟨s, n⟩, c :: cs)

/-- The linked-list part of `deallocate`: walk `while current.start < start`
(the walked prefix is `takeWhile`, the stop point `dropWhile`), merge the
candidate with the following node if adjacent, then either merge it into the
predecessor (when `prev.start + prev.size == start`) or link it in place.
The Python `if not self.free_list` branch coincides with the general path on
`[]` but is kept explicit, as in the source. -/
def deallocInsert (s n : Int) (l : List FreeExtent) : List FreeExtent :=
  match l with
  | [] => [⟨s, n⟩]
  | _ :: _ =>
    let pre := l.takeWhile (fun e => e.start < s)
    let suf := l.dropWhile (fun e => e.start < s)
    let merged := deallocMergeNext s n suf
    match pre.getLast? with
    | some p =>
      if p.start + p.size = s then pre.dropLast ++ ⟨p.start, p.size + merged.1.size⟩ :: merged.2
      else pre ++ merged.1 :: merged.2
    | none => merged.1 :: merged.2

/-- The tail of `deallocInsert` after the walk, abstracted over the walked
prefix `P` and the remaining suffix `S` (so that it can be reasoned about
independently of `takeWhile`/`dropWhile`): next-merge into `S`, then either
prev-merge into the last node of `P` or plain linking. -/
def deallocCore (s n : Int) (P S : List FreeExtent) : List FreeExtent :=
  let merged := deallocMergeNext s n S
  match P.getLast? with
  | some p =>
    if p.start + p.size = s then
      P.dropLast ++ ⟨p.start, p.size + merged.1.size⟩ :: merged.2
    else P ++ merged.1 :: merged.2
  | none => merged.1 :: merged.2

/-- The scan state of `update_groups`: `none` when not inside a free run,
`some gs` when a run began at index `gs`.  `i` is the index of the current
list head.  Runs are emitted as `(group_start, length)` pairs, here carried
by the same record type as the free-list extents. -/
def groupsAux : List Int → Int → Option Int → List FreeExtent
  | [], _, none => []
  | [], i, some gs => [⟨gs, i - gs⟩]
  | x :: rest, i, none =>
    if x = 0 then groupsAux rest (i + 1) (some i) else groupsAux rest (i + 1) none
  | x :: rest, i, some gs =>
    if x = 0 then groupsAux rest (i + 1) (some gs)
    else ⟨gs, i - gs⟩ :: groupsAux rest (i + 1) none

/-- `update_groups`: one left-to-right scan of the bitmap collecting the
maximal runs of `0` entries. -/
def update_groups (b : List Int) : List FreeExtent := groupsAux b 0 none

/-- The manager state: capacity, bitmap, free-extent chain and the derived
group summary (`self.groups`, recomputed after every mutation). -/
structure HybridSpaceManager where
  disk_size : Int
  bitmap : List Int
  free_list : List FreeExtent
  groups : List FreeExtent
deriving DecidableEq

/-- `__init__`: all blocks free, a single extent spanning the device, groups
recomputed from the fresh bitmap. -/
def HybridSpaceManager.init (disk_size : Int) : HybridSpaceManager :=
  let bitmap := List.replicate disk_size.toNat 0
  { disk_size := disk_size
    bitmap := bitmap
    free_list := [⟨0, disk_size⟩]
    groups := update_groups bitmap }

/-- `allocate(start, n)`: range check, occupancy check, mark the bitmap,
repair the free list, recompute groups.  Returns the new state plus the
Python return value `(success, start-or-minus-one)`. -/
def allocate (m : HybridSpaceManager) (start n : Int) : HybridSpaceManager × Bool × Int :=
  if start < 0 ∨ start + n > m.disk_size then (m, false, -1)
  else if anyAllocated m.bitmap start (start + n) then (m, false, -1)
  else
    let bitmap := setRange 1 start (start + n) m.bitmap
    ({ disk_size := m.disk_size
       bitmap := bitmap
       free_list := allocRemove start n m.free_list
       groups := update_groups bitmap }, true, start)

/-- `deallocate(start, n)`: range check, clear the bitmap, insert-and-merge
into the free list, recompute groups.  Returns the new state plus the
Python boolean result. -/
def deallocate (m : HybridSpaceManager) (start n : Int) : HybridSpaceManager × Bool :=
  if start + n > m.disk_size ∨ start < 0 then (m, false)
  else
    let bitmap := setRange 0 start (start + n) m.bitmap
    ({ disk_size := m.disk_size
       bitmap := bitmap
       free_list := deallocInsert start n m.free_list
       groups := update_groups bitmap }, true)

/-- Read the bitmap at an arbitrary integer index; positions outside the
device read as `1` (allocated), so `bitGet b j = 0` says exactly "`j` is a
block of the device and it is free". -/
def bitGet (b : List Int) (j : Int) : Int := if 0 ≤ j then b.getD j.toNat 1 else 1

/-- `True` iff block `j` is covered by some extent of the list. -/
def coveredB (E : List FreeExtent) (j : Int) : Bool :=
  E.any (fun e => decide (e.start ≤ j ∧ j < e.start + e.size))

/-- The spec's shape invariant on the free list: extents pairwise ordered
with a strict gap (`a.start + a.size < b.start`, i.e. non-overlapping,
strictly increasing, never adjacent) and of positive size. -/
def Canonical (E : List FreeExtent) : Prop :=
  List.Pairwise (fun a b : FreeExtent => a.start + a.size < b.start) E ∧
    ∀ e ∈ E, 0 < e.size

/-- Every extent lies inside the device `[0, d)`. -/
def InBounds (d : Int) (E : List FreeExtent) : Prop :=
  ∀ e ∈ E, 0 ≤ e.start ∧ e.start + e.size ≤ d

/-- The full machine invariant tying the three views together (spec §3).
All quantifiers are bounded, so `ManagerInv` is decidable on concrete states. -/
def ManagerInv (m : HybridSpaceManager) : Prop :=
  0 ≤ m.disk_size ∧
  m.bitmap.length = m.disk_size.toNat ∧
  (∀ x ∈ m.bitmap, x = 0 ∨ x = 1) ∧
  Canonical m.free_list ∧
  InBounds m.disk_size m.free_list ∧
  (∀ k : Nat, k < m.bitmap.length →
    (bitGet m.bitmap k = 0 ↔ coveredB m.free_list k = true)) ∧
  m.groups = update_groups m.bitmap

instance (m : HybridSpaceManager) : Decidable (ManagerInv m) := by
  unfold ManagerInv Canonical InBounds
  exact inferInstance

/-- A valid allocation request: positive count, in range, all blocks free
(the spec's preconditions for `allocate`). -/
def ValidAlloc (m : HybridSpaceManager) (s n : Int) : Prop :=
  1 ≤ n ∧ 0 ≤ s ∧ s + n ≤ m.disk_size ∧ anyAllocated m.bitmap s (s + n) = false

/-- A valid deallocation request: positive count, in range, and every
targeted block currently allocated (so the call is not a double free). -/
def ValidDealloc (m : HybridSpaceManager) (s n : Int) : Prop :=
  1 ≤ n ∧ 0 ≤ s ∧ s + n ≤ m.disk_size ∧
    ∀ k : Nat, k < m.bitmap.length → s ≤ (k : Int) → (k : Int) < s + n →
      bitGet m.bitmap k = 1

/-- States reachable from a freshly constructed manager (positive capacity)
by valid allocate / deallocate calls. -/
inductive Reachable : HybridSpaceManager → Prop
  | init (d : Int) (hd : 1 ≤ d) : Reachable (HybridSpaceManager.init d)
  | alloc (m : HybridSpaceManager) (s n : Int) (hm : Reachable m)
      (hv : ValidAlloc m s n) : Reachable (allocate m s n).1
  | dealloc (m : HybridSpaceManager) (s n : Int) (hm : Reachable m)
      (hv : ValidDealloc m s n) : Reachable (deallocate m s n).1

/-- Stated from the spec's words: `(start, size)` is a maximal contiguous
run of free blocks of the bitmap — nonempty, every block in it free, and
not extendable on either side (positions off the device read as allocated
via `bitGet`). -/
def IsMaximalFreeRun (b : List Int) (e : FreeExtent) : Prop :=
  1 ≤ e.size ∧
  (∀ j : Int, e.start ≤ j → j < e.start + e.size → bitGet b j = 0) ∧
  bitGet b (e.start - 1) ≠ 0 ∧
  bitGet b (e.start + e.size) ≠ 0

/-- The four-way case split `allocate` applies to the covering extent;
`allocRemove` replaces that extent by exactly this list. -/
def allocCase (s n : Int) (e : FreeExtent) : List FreeExtent :=
  if e.start = s ∧ e.size = n then []
  else if e.start = s then [⟨e.start + n, e.size - n⟩]
  else if e.start + e.size = s + n then [⟨e.start, e.size - n⟩]
  else [⟨e.start, s - e.start⟩, ⟨s + n, e.start + e.size - s - n⟩]

/-- A 20-block state with blocks 0-4 and 15-19 allocated and free extent
`[5:15)`, used as a concrete test state. -/
def demoState20 : HybridSpaceManager :=
  (allocate (allocate (HybridSpaceManager.init 20) 0 5).1 15 5).1

-- Sanity checks of the embedding on the spec's own worked examples.
example : (allocate (HybridSpaceManager.init 50) 10 5).1.free_list =
    [⟨0, 10⟩, ⟨15, 35⟩] := by decide

example : (allocate (HybridSpaceManager.init 50) 48 5).2 = (false, -1) := by decide

/-! ## Basic facts about the bitmap helpers -/

theorem setRangeAux_length (v s e : Int) : ∀ (b : List Int) (i : Int),
    (setRangeAux v s e b i).length = b.length := by
  intro b
  induction b with
  | nil => intro i; rfl
  | cons x rest ih => intro i; simp [setRangeAux, ih]

theorem setRange_length (v s e : Int) (b : List Int) :
    (setRange v s e b).length = b.length := setRangeAux_length v s e b 0

theorem setRangeAux_getD (v s e : Int) : ∀ (b : List Int) (i : Int) (k : Nat),
    (setRangeAux v s e b i).getD k 1 =
      if s ≤ i + k ∧ i + (k : Int) < e ∧ k < b.length then v else b.getD k 1 := by
  intro b
  induction b with
  | nil => intro i k; simp [setRangeAux]
  | cons x rest ih =>
    intro i k
    cases k with
    | zero =>
      simp only [setRangeAux, List.getD_cons_zero, Nat.cast_zero, add_zero,
        List.length_cons]
      exact if_congr (by omega) rfl rfl
    | succ k =>
      simp only [setRangeAux, List.getD_cons_succ, List.length_cons]
      rw [ih (i + 1) k]
      exact if_congr (by push_cast; omega) rfl rfl

theorem bitGet_setRange (v s e : Int) (b : List Int) (j : Int) :
    bitGet (setRange v s e b) j =
      if s ≤ j ∧ j < e ∧ 0 ≤ j ∧ j.toNat < b.length then v else bitGet b j := by
  unfold bitGet setRange
  by_cases hj : 0 ≤ j
  · rw [if_pos hj, setRangeAux_getD]
    have hto : ((j.toNat : Int)) = j := Int.toNat_of_nonneg hj
    rw [show ((0 : Int) + (j.toNat : Int)) = j by omega]
    exact if_congr (by omega) rfl (by rw [if_pos hj])
  · rw [if_neg hj, if_neg (by omega), if_neg hj]

theorem setRangeAux_outside (v s e : Int) (h : e ≤ s) :
    ∀ (b : List Int) (i : Int), setRangeAux v s e b i = b := by
  intro b
  induction b with
  | nil => intro i; rfl
  | cons x rest ih =>
    intro i
    simp only [setRangeAux, ih]
    rw [if_neg (by omega)]

theorem setRange_empty_range (v s e : Int) (b : List Int) (h : e ≤ s) :
    setRange v s e b = b := setRangeAux_outside v s e h b 0

theorem anyAllocAux_false_forall (s e : Int) : ∀ (b : List Int) (i : Int),
    anyAllocAux s e b i = false →
      ∀ k : Nat, k < b.length → s ≤ i + k → i + (k : Int) < e → b.getD k 1 ≠ 1 := by
  intro b
  induction b with
  | nil => intro i _ k hk; simp at hk
  | cons x rest ih =>
    intro i h k hk hs he
    rw [anyAllocAux, Bool.or_eq_false_iff] at h
    obtain ⟨h1, h2⟩ := h
    cases k with
    | zero =>
      simp only [List.getD_cons_zero]
      intro hx
      rw [Bool.and_eq_false_iff] at h1
      rcases h1 with h1 | h1
      · rw [decide_eq_false_iff_not] at h1
        exact h1 ⟨by simpa using hs, by simpa using he⟩
      · simp [hx] at h1
    | succ k =>
      refine ih (i + 1) h2 k (by simpa using hk) (by push_cast at hs ⊢; omega)
        (by push_cast at he ⊢; omega)

theorem anyAllocAux_outside (s e : Int) (h : e ≤ s) :
    ∀ (b : List Int) (i : Int), anyAllocAux s e b i = false := by
  intro b
  induction b with
  | nil => intro i; rfl
  | cons x rest ih =>
    intro i
    rw [anyAllocAux, Bool.or_eq_false_iff]
    refine ⟨?_, ih (i + 1)⟩
    rw [Bool.and_eq_false_iff]
    left
    rw [decide_eq_false_iff_not]
    omega

theorem anyAllocated_empty_range (b : List Int) (s e : Int) (h : e ≤ s) :
    anyAllocated b s e = false := anyAllocAux_outside s e h b 0

/-! ## Coverage and canonical free lists -/

theorem coveredB_nil (j : Int) : coveredB [] j = false := rfl

theorem coveredB_cons (e : FreeExtent) (E : List FreeExtent) (j : Int) :
    coveredB (e :: E) j =
      (decide (e.start ≤ j ∧ j < e.start + e.size) || coveredB E j) := rfl

theorem coveredB_append (E F : List FreeExtent) (j : Int) :
    coveredB (E ++ F) j = (coveredB E j || coveredB F j) := List.any_append

theorem coveredB_eq_true (E : List FreeExtent) (j : Int) :
    coveredB E j = true ↔ ∃ e ∈ E, e.start ≤ j ∧ j < e.start + e.size := by
  simp [coveredB]

theorem coveredB_of_mem {E : List FreeExtent} {e : FreeExtent} {j : Int}
    (he : e ∈ E) (h1 : e.start ≤ j) (h2 : j < e.start + e.size) :
    coveredB E j = true := (coveredB_eq_true E j).2 ⟨e, he, h1, h2⟩

theorem canonical_cons_iff (e : FreeExtent) (E : List FreeExtent) :
    Canonical (e :: E) ↔
      (∀ f ∈ E, e.start + e.size < f.start) ∧ 0 < e.size ∧ Canonical E := by
  simp only [Canonical, List.pairwise_cons, List.forall_mem_cons]
  tauto

theorem canonical_append_iff (E F : List FreeExtent) :
    Canonical (E ++ F) ↔ Canonical E ∧ Canonical F ∧
      ∀ a ∈ E, ∀ b ∈ F, a.start + a.size < b.start := by
  simp only [Canonical, List.pairwise_append, List.forall_mem_append]
  tauto

theorem covered_lb {e : FreeExtent} {E : List FreeExtent}
    (hc : Canonical (e :: E)) {j : Int} (hj : coveredB (e :: E) j = true) :
    e.start ≤ j := by
  rcases (coveredB_eq_true _ _).1 hj with ⟨f, hf, h1, h2⟩
  rcases List.mem_cons.1 hf with rfl | hf
  · exact h1
  · have := ((canonical_cons_iff _ _).1 hc).1 f hf
    have hpos := ((canonical_cons_iff _ _).1 hc).2.1
    omega

theorem covered_end_false {e : FreeExtent} {E : List FreeExtent}
    (hc : Canonical (e :: E)) : coveredB (e :: E) (e.start + e.size) = false := by
  rw [← Bool.not_eq_true, coveredB_eq_true]
  rintro ⟨f, hf, h1, h2⟩
  rcases List.mem_cons.1 hf with rfl | hf
  · omega
  · have := ((canonical_cons_iff _ _).1 hc).1 f hf
    omega

theorem covered_cons_high {e : FreeExtent} (E : List FreeExtent) {j : Int}
    (hj : e.start + e.size ≤ j) : coveredB (e :: E) j = coveredB E j := by
  rw [coveredB_cons, decide_eq_false (by omega), Bool.false_or]

theorem covered_tail_low {e : FreeExtent} {E : List FreeExtent}
    (hc : Canonical (e :: E)) {j : Int} (hj : j < e.start + e.size) :
    coveredB E j = false := by
  rw [← Bool.not_eq_true, coveredB_eq_true]
  rintro ⟨f, hf, h1, h2⟩
  have := ((canonical_cons_iff _ _).1 hc).1 f hf
  omega

/-- Two canonical free lists covering the same set of blocks are equal:
the canonical form (sorted, positive, non-adjacent) of a set of free
blocks is unique. -/
theorem canonical_covered_unique : ∀ (E F : List FreeExtent), Canonical E → Canonical F →
    (∀ j : Int, coveredB E j = coveredB F j) → E = F := by
  intro E
  induction E with
  | nil =>
    intro F hE hF h
    cases F with
    | nil => rfl
    | cons c F' =>
      exfalso
      have hpos := ((canonical_cons_iff _ _).1 hF).2.1
      have hf : coveredB (c :: F') c.start = true :=
        coveredB_of_mem (List.mem_cons_self c F') le_rfl (by omega)
      rw [← h] at hf
      simp [coveredB_nil] at hf
  | cons a E' ih =>
    intro F hE hF h
    cases F with
    | nil =>
      exfalso
      have hpos := ((canonical_cons_iff _ _).1 hE).2.1
      have hf : coveredB (a :: E') a.start = true :=
        coveredB_of_mem (List.mem_cons_self a E') le_rfl (by omega)
      rw [h] at hf
      simp [coveredB_nil] at hf
    | cons c F' =>
      have haP := ((canonical_cons_iff _ _).1 hE).2.1
      have hcP := ((canonical_cons_iff _ _).1 hF).2.1
      have hstart : a.start = c.start := by
        have h1 : coveredB (a :: E') a.start = true :=
          coveredB_of_mem (List.mem_cons_self a E') le_rfl (by omega)
        have h2 : coveredB (c :: F') c.start = true :=
          coveredB_of_mem (List.mem_cons_self c F') le_rfl (by omega)
        have l1 : c.start ≤ a.start := covered_lb hF (h a.start ▸ h1)
        have l2 : a.start ≤ c.start := covered_lb hE (h c.start ▸ h2.symm ▸ h2)
        omega
      have hsize : a.size = c.size := by
        by_contra hne
        rcases lt_or_gt_of_ne hne with hlt | hgt
        · have hj1 : coveredB (c :: F') (a.start + a.size) = true :=
            coveredB_of_mem (List.mem_cons_self c F') (by omega) (by omega)
          have hj2 := covered_end_false hE
          rw [← h] at hj1
          rw [hj1] at hj2
          simp at hj2
        · have hj1 : coveredB (a :: E') (c.start + c.size) = true :=
            coveredB_of_mem (List.mem_cons_self a E') (by omega) (by omega)
          have hj2 := covered_end_false hF
          rw [h] at hj1
          rw [hj1] at hj2
          simp at hj2
      have hac : a = c := by
        cases a; cases c
        simp_all
      subst hac
      have htails : ∀ j : Int, coveredB E' j = coveredB F' j := by
        intro j
        by_cases hj : j < a.start + a.size
        · rw [covered_tail_low hE hj, covered_tail_low hF hj]
        · push_neg at hj
          rw [← covered_cons_high E' hj, ← covered_cons_high F' hj]
          exact h j
      rw [ih F' ((canonical_cons_iff _ _).1 hE).2.2 ((canonical_cons_iff _ _).1 hF).2.2 htails]

/-- In a canonical list, a contiguous fully-covered range lies inside a
single extent, and `allocate`'s list walk reaches it: the list splits as
`pre ++ e :: post` with `e` covering the range and every earlier extent
ending strictly before `e` starts. -/
theorem covered_range_single : ∀ (E : List FreeExtent), Canonical E → ∀ (s n : Int), 1 ≤ n →
    (∀ j : Int, s ≤ j → j < s + n → coveredB E j = true) →
    ∃ pre e post, E = pre ++ e :: post ∧ e.start ≤ s ∧ s + n ≤ e.start + e.size ∧
      ∀ p ∈ pre, p.start + p.size < e.start := by
  intro E
  induction E with
  | nil =>
    intro _ s n hn h
    exfalso
    have := h s le_rfl (by omega)
    simp [coveredB_nil] at this
  | cons a E' ih =>
    intro hc s n hn h
    by_cases ha : a.start ≤ s ∧ s + n ≤ a.start + a.size
    · exact ⟨[], a, E', rfl, ha.1, ha.2, by simp⟩
    · have hs := h s le_rfl (by omega)
      have hlb : a.start ≤ s := covered_lb hc hs
      have hend : a.start + a.size ≤ s := by
        by_contra hx
        push_neg at hx
        have h2 : a.start + a.size < s + n := by omega
        have h3 := covered_end_false hc
        have h4 := h (a.start + a.size) (by omega) (by omega)
        rw [h4] at h3
        simp at h3
      have h' : ∀ j : Int, s ≤ j → j < s + n → coveredB E' j = true := by
        intro j hj1 hj2
        have := h j hj1 hj2
        rwa [covered_cons_high E' (by omega)] at this
      obtain ⟨pre, e, post, hsplit, h1, h2, h3⟩ :=
        ih ((canonical_cons_iff _ _).1 hc).2.2 s n hn h'
      refine ⟨a :: pre, e, post, by simp [hsplit], h1, h2, ?_⟩
      intro p hp
      rcases List.mem_cons.1 hp with rfl | hp
      · have he : e ∈ E' := by
          rw [hsplit]
          exact List.mem_append_right pre (List.mem_cons_self e post)
        exact ((canonical_cons_iff _ _).1 hc).1 e he
      · exact h3 p hp

/-- Unfolding `allocate`'s loop over a decomposition `pre ++ e :: post`
where no prefix extent satisfies the loop's covering test and `e` does:
the covering extent is replaced by its `allocCase` rewrite. -/
theorem allocRemove_cons_skip (s n : Int) (e : FreeExtent) (l : List FreeExtent)
    (h : ¬(e.start ≤ s ∧ s + n ≤ e.start + e.size)) :
    allocRemove s n (e :: l) = e :: allocRemove s n l := by
  simp only [allocRemove]
  exact if_neg h

theorem allocRemove_append (s n : Int) :
    ∀ (pre : List FreeExtent) (e : FreeExtent) (post : List FreeExtent),
    (∀ p ∈ pre, ¬(p.start ≤ s ∧ s + n ≤ p.start + p.size)) →
    e.start ≤ s → s + n ≤ e.start + e.size →
    allocRemove s n (pre ++ e :: post) = pre ++ allocCase s n e ++ post := by
  intro pre
  induction pre with
  | nil =>
    intro e post _ h1 h2
    simp only [List.nil_append, allocRemove, allocCase]
    rw [if_pos ⟨h1, h2⟩]
    split_ifs <;> simp
  | cons p pre' ih =>
    intro e post hpre h1 h2
    rw [List.cons_append, allocRemove_cons_skip s n p _ (hpre p (List.mem_cons_self p pre')),
      ih e post (fun q hq => hpre q (List.mem_cons_of_mem p hq)) h1 h2]
    simp

/-- What `allocate`'s four-way case split makes of the covering extent:
pieces stay inside the old extent, are canonical, and cover exactly the old
extent's blocks minus the allocated range. -/
theorem allocCase_spec (s n : Int) (e : FreeExtent) (h1 : e.start ≤ s)
    (h2 : s + n ≤ e.start + e.size) (hn : 1 ≤ n) :
    (∀ f ∈ allocCase s n e,
        e.start ≤ f.start ∧ f.start + f.size ≤ e.start + e.size ∧ 0 < f.size) ∧
    List.Pairwise (fun a b : FreeExtent => a.start + a.size < b.start) (allocCase s n e) ∧
    (∀ j : Int, coveredB (allocCase s n e) j = true ↔
      (e.start ≤ j ∧ j < e.start + e.size) ∧ ¬(s ≤ j ∧ j < s + n)) := by
  unfold allocCase
  split_ifs with hA hB hC
  · refine ⟨by simp, by simp, ?_⟩
    intro j
    simp only [coveredB_nil, Bool.false_eq_true, false_iff]
    omega
  · refine ⟨?_, by simp, ?_⟩
    · intro f hf
      rcases List.mem_cons.1 hf with rfl | hf
      · simp only
        omega
      · simp at hf
    · intro j
      rw [coveredB_cons, coveredB_nil, Bool.or_false, decide_eq_true_eq]
      simp only
      omega
  · refine ⟨?_, by simp, ?_⟩
    · intro f hf
      rcases List.mem_cons.1 hf with rfl | hf
      · simp only
        omega
      · simp at hf
    · intro j
      rw [coveredB_cons, coveredB_nil, Bool.or_false, decide_eq_true_eq]
      simp only
      omega
  · refine ⟨?_, ?_, ?_⟩
    · intro f hf
      rcases List.mem_cons.1 hf with rfl | hf
      · simp only
        omega
      rcases List.mem_cons.1 hf with rfl | hf
      · simp only
        omega
      · simp at hf
    · refine List.pairwise_cons.2 ⟨?_, by simp⟩
      intro f hf
      rcases List.mem_cons.1 hf with rfl | hf
      · simp only
        omega
      · simp at hf
    · intro j
      rw [coveredB_cons, coveredB_cons, coveredB_nil, Bool.or_false,
        Bool.or_eq_true, decide_eq_true_eq, decide_eq_true_eq]
      simp only
      omega

/-- Effect of `allocate`'s list repair on a canonical list when the
requested range is entirely free (covered): the result is canonical, covers
exactly the old blocks minus the range, and stays inside the device. -/
theorem allocRemove_spec (E : List FreeExtent) (hc : Canonical E) (s n : Int) (hn : 1 ≤ n)
    (hcov : ∀ j : Int, s ≤ j → j < s + n → coveredB E j = true) :
    Canonical (allocRemove s n E) ∧
    (∀ j : Int, coveredB (allocRemove s n E) j = true ↔
      coveredB E j = true ∧ ¬(s ≤ j ∧ j < s + n)) ∧
    ∀ d : Int, InBounds d E → InBounds d (allocRemove s n E) := by
  obtain ⟨pre, e, post, hsplit, h1, h2, hpre⟩ := covered_range_single E hc s n hn hcov
  subst hsplit
  obtain ⟨hcpre, hcrest, hcross⟩ := (canonical_append_iff _ _).1 hc
  obtain ⟨hepost, hepos, hcpost⟩ := (canonical_cons_iff _ _).1 hcrest
  obtain ⟨hwithin, hpw, hcovcase⟩ := allocCase_spec s n e h1 h2 hn
  have hrw : allocRemove s n (pre ++ e :: post) = pre ++ allocCase s n e ++ post :=
    allocRemove_append s n pre e post (fun p hp => by have := hpre p hp; omega) h1 h2
  rw [hrw]
  refine ⟨?_, ?_, ?_⟩
  · rw [List.append_assoc]
    apply (canonical_append_iff _ _).2
    refine ⟨hcpre, ?_, ?_⟩
    · apply (canonical_append_iff _ _).2
      refine ⟨⟨hpw, fun f hf => (hwithin f hf).2.2⟩, hcpost, ?_⟩
      intro a ha b hb
      have h3 := hwithin a ha
      have h4 := hepost b hb
      omega
    · intro a ha b hb
      rcases List.mem_append.1 hb with hb | hb
      · have h3 := hpre a ha
        have h4 := hwithin b hb
        omega
      · exact hcross a ha b (List.mem_cons_of_mem e hb)
  · intro j
    rw [List.append_assoc, coveredB_append, coveredB_append, coveredB_append, coveredB_cons]
    by_cases hr : s ≤ j ∧ j < s + n
    · have hpre0 : coveredB pre j = false := by
        rw [← Bool.not_eq_true, coveredB_eq_true]
        rintro ⟨p, hp, c1, c2⟩
        have := hpre p hp
        omega
      have hpost0 : coveredB post j = false := by
        rw [← Bool.not_eq_true, coveredB_eq_true]
        rintro ⟨q, hq, c1, c2⟩
        have := hepost q hq
        omega
      have hcase0 : coveredB (allocCase s n e) j = false := by
        rw [← Bool.not_eq_true]
        intro hx
        exact ((hcovcase j).1 hx).2 hr
      rw [hpre0, hpost0, hcase0]
      constructor
      · intro h
        simp at h
      · rintro ⟨_, hnr⟩
        exact absurd hr hnr
    · have hcase : coveredB (allocCase s n e) j =
          decide (e.start ≤ j ∧ j < e.start + e.size) := by
        by_cases he : e.start ≤ j ∧ j < e.start + e.size
        · rw [decide_eq_true he, (hcovcase j).2 ⟨he, hr⟩]
        · rw [decide_eq_false he, ← Bool.not_eq_true]
          intro hx
          exact he ((hcovcase j).1 hx).1
      rw [hcase]
      exact ⟨fun h => ⟨h, hr⟩, fun h => h.1⟩
  · intro d hbd f hf
    rcases List.mem_append.1 hf with hf | hf
    rcases List.mem_append.1 hf with hf | hf
    · exact hbd f (List.mem_append_left _ hf)
    · have h3 := hwithin f hf
      have h4 := hbd e (List.mem_append_right _ (List.mem_cons_self e post))
      exact ⟨by omega, by omega⟩
    · exact hbd f (List.mem_append_right _ (List.mem_cons_of_mem e hf))

theorem dropWhile_head_false {α : Type} (p : α → Bool) : ∀ (l : List α) (c : α) (cs : List α),
    l.dropWhile p = c :: cs → p c = false := by
  intro l
  induction l with
  | nil => intro c cs h; simp [List.dropWhile] at h
  | cons x rest ih =>
    intro c cs h
    rw [List.dropWhile_cons] at h
    by_cases hx : p x = true
    · rw [if_pos hx] at h
      exact ih c cs h
    · rw [if_neg hx] at h
      injection h with h1 h2
      subst h1
      exact Bool.eq_false_iff.2 hx

theorem deallocInsert_eq_core (s n : Int) (l : List FreeExtent) :
    deallocInsert s n l = deallocCore s n (l.takeWhile (fun e => e.start < s))
      (l.dropWhile (fun e => e.start < s)) := by
  cases l with
  | nil => rfl
  | cons a l' => rfl

/-- Behaviour of the next-merge step when every suffix extent starts at or
after `s + n`: the candidate keeps start `s`, grows to at least `n`, and the
candidate-plus-tail list is canonical, covers old-suffix-blocks plus the
freed range, and stays in bounds. -/
theorem deallocMergeNext_spec (s n : Int) (hn : 1 ≤ n) (S : List FreeExtent)
    (hcS : Canonical S) (hSlo : ∀ c ∈ S, s + n ≤ c.start) :
    (deallocMergeNext s n S).1.start = s ∧
    n ≤ (deallocMergeNext s n S).1.size ∧
    Canonical ((deallocMergeNext s n S).1 :: (deallocMergeNext s n S).2) ∧
    (∀ j : Int, coveredB ((deallocMergeNext s n S).1 :: (deallocMergeNext s n S).2) j = true ↔
      ((s ≤ j ∧ j < s + n) ∨ coveredB S j = true)) ∧
    (∀ d : Int, InBounds d S → 0 ≤ s → s + n ≤ d →
      InBounds d ((deallocMergeNext s n S).1 :: (deallocMergeNext s n S).2)) := by
  cases S with
  | nil =>
    have hMN : deallocMergeNext s n ([] : List FreeExtent) = (⟨s, n⟩, []) := rfl
    rw [hMN]
    refine ⟨rfl, le_refl n, ?_, ?_, ?_⟩
    · show Canonical [(⟨s, n⟩ : FreeExtent)]
      refine ⟨List.pairwise_singleton _ _, ?_⟩
      intro e he
      rw [List.mem_singleton] at he
      subst he
      show (0 : Int) < n
      omega
    · intro j
      show coveredB [(⟨s, n⟩ : FreeExtent)] j = true ↔
        (s ≤ j ∧ j < s + n) ∨ coveredB [] j = true
      rw [coveredB_cons, coveredB_nil, Bool.or_false, decide_eq_true_eq]
      constructor
      · intro h
        exact Or.inl h
      · rintro (h | h)
        · exact h
        · simp at h
    · intro d _ hs hsn e he
      rw [show ((⟨s, n⟩, ([] : List FreeExtent)) : FreeExtent × List FreeExtent).1 ::
        ((⟨s, n⟩, ([] : List FreeExtent)) : FreeExtent × List FreeExtent).2 =
        [(⟨s, n⟩ : FreeExtent)] from rfl, List.mem_singleton] at he
      subst he
      exact ⟨hs, hsn⟩
  | cons c cs =>
    obtain ⟨hccs, hcpos, hccs'⟩ := (canonical_cons_iff _ _).1 hcS
    have hclo : s + n ≤ c.start := hSlo c (List.mem_cons_self c cs)
    rw [deallocMergeNext]
    split_ifs with hadj
    · -- absorb the following node
      refine ⟨rfl, by simp only; omega, ?_, ?_, ?_⟩
      · refine (canonical_cons_iff _ _).2 ⟨?_, by simp only; omega, hccs'⟩
        intro f hf
        have := hccs f hf
        simp only
        omega
      · intro j
        rw [coveredB_cons, coveredB_cons, Bool.or_eq_true, Bool.or_eq_true,
          decide_eq_true_eq, decide_eq_true_eq]
        simp only
        constructor
        · rintro (h | h)
          · by_cases hr : j < s + n
            · exact Or.inl ⟨h.1, hr⟩
            · exact Or.inr (Or.inl ⟨by omega, by omega⟩)
          · exact Or.inr (Or.inr h)
        · rintro (h | h | h)
          · exact Or.inl ⟨h.1, by omega⟩
          · exact Or.inl ⟨by omega, by omega⟩
          · exact Or.inr h
      · intro d hbd hs hsn f hf
        rcases List.mem_cons.1 hf with rfl | hf
        · have := hbd c (List.mem_cons_self c cs)
          exact ⟨hs, by simp only; omega⟩
        · exact hbd f (List.mem_cons_of_mem c hf)
    · -- no merge with the following node
      refine ⟨rfl, le_refl n, ?_, ?_, ?_⟩
      · refine (canonical_cons_iff _ _).2 ⟨?_, by simp only; omega, hcS⟩
        intro f hf
        rcases List.mem_cons.1 hf with rfl | hf
        · simp only
          omega
        · have := hccs f hf
          simp only
          omega
      · intro j
        show (decide (s ≤ j ∧ j < s + n) || coveredB (c :: cs) j) = true ↔
          (s ≤ j ∧ j < s + n) ∨ coveredB (c :: cs) j = true
        rw [Bool.or_eq_true, decide_eq_true_eq]
      · intro d hbd hs hsn f hf
        rcases List.mem_cons.1 hf with rfl | hf
        · exact ⟨hs, hsn⟩
        · exact hbd f hf

/-- Behaviour of `deallocate`'s insert-and-merge given the walked prefix
`P` (every extent ending at or before `s`) and suffix `S` (every extent
starting at or after `s + n`): the result is canonical, covers exactly the
old blocks plus the freed range, and stays in bounds. -/
theorem deallocCore_spec (s n : Int) (hn : 1 ≤ n) (P S : List FreeExtent)
    (hcP : Canonical P) (hcS : Canonical S)
    (hPends : ∀ p ∈ P, p.start + p.size ≤ s)
    (hSlo : ∀ c ∈ S, s + n ≤ c.start) :
    Canonical (deallocCore s n P S) ∧
    (∀ j : Int, coveredB (deallocCore s n P S) j = true ↔
      coveredB P j = true ∨ coveredB S j = true ∨ (s ≤ j ∧ j < s + n)) ∧
    (∀ d : Int, InBounds d P → InBounds d S → 0 ≤ s → s + n ≤ d →
      InBounds d (deallocCore s n P S)) := by
  obtain ⟨hMs, hMn, hMcan, hMcov, hMbd⟩ := deallocMergeNext_spec s n hn S hcS hSlo
  rcases List.eq_nil_or_concat P with rfl | ⟨P', p, hP⟩
  · have hcore : deallocCore s n [] S =
        (deallocMergeNext s n S).1 :: (deallocMergeNext s n S).2 := rfl
    rw [hcore]
    refine ⟨hMcan, ?_, ?_⟩
    · intro j
      rw [hMcov j, coveredB_nil]
      constructor
      · rintro (h | h)
        · exact Or.inr (Or.inr h)
        · exact Or.inr (Or.inl h)
      · rintro (h | h | h)
        · simp at h
        · exact Or.inr h
        · exact Or.inl h
    · intro d _ hbS hs hsn
      exact hMbd d hbS hs hsn
  · rw [List.concat_eq_append] at hP
    subst hP
    have hpmem : p ∈ P' ++ [p] := List.mem_append_right P' (List.mem_singleton.2 rfl)
    have hppos : 0 < p.size := hcP.2 p hpmem
    have hpend : p.start + p.size ≤ s := hPends p hpmem
    obtain ⟨hcP', hcp, hcrossP⟩ := (canonical_append_iff _ _).1 hcP
    have hP'p : ∀ q ∈ P', q.start + q.size < p.start :=
      fun q hq => hcrossP q hq p (List.mem_singleton.2 rfl)
    have hP'pos : ∀ q ∈ P', 0 < q.size := fun q hq => hcP.2 q (List.mem_append_left _ hq)
    have hcore : deallocCore s n (P' ++ [p]) S =
        if p.start + p.size = s then
          P' ++ ⟨p.start, p.size + (deallocMergeNext s n S).1.size⟩ ::
            (deallocMergeNext s n S).2
        else (P' ++ [p]) ++ (deallocMergeNext s n S).1 :: (deallocMergeNext s n S).2 := by
      simp only [deallocCore, List.getLast?_concat, List.dropLast_concat]
    rw [hcore]
    have hM2hi : ∀ x ∈ (deallocMergeNext s n S).2,
        (deallocMergeNext s n S).1.start + (deallocMergeNext s n S).1.size < x.start :=
      ((canonical_cons_iff _ _).1 hMcan).1
    have hM1pos : 0 < (deallocMergeNext s n S).1.size := by omega
    have hM2can : Canonical (deallocMergeNext s n S).2 :=
      ((canonical_cons_iff _ _).1 hMcan).2.2
    split_ifs with hadj
    · refine ⟨?_, ?_, ?_⟩
      · apply (canonical_append_iff _ _).2
        refine ⟨hcP', ?_, ?_⟩
        · apply (canonical_cons_iff _ _).2
          refine ⟨?_, by simp only; omega, hM2can⟩
          intro f hf
          have := hM2hi f hf
          simp only
          omega
        · intro a ha b hb
          rcases List.mem_cons.1 hb with rfl | hb
          · have := hP'p a ha
            simp only
            omega
          · have h1 := hP'p a ha
            have h2 := hM2hi b hb
            omega
      · intro j
        have hL : coveredB (P' ++ ⟨p.start, p.size + (deallocMergeNext s n S).1.size⟩ ::
            (deallocMergeNext s n S).2) j =
            (coveredB P' j ||
              (decide (p.start ≤ j ∧ j < p.start + (p.size + (deallocMergeNext s n S).1.size)) ||
                coveredB (deallocMergeNext s n S).2 j)) := by
          rw [coveredB_append, coveredB_cons]
        have hR : coveredB (P' ++ [p]) j =
            (coveredB P' j || decide (p.start ≤ j ∧ j < p.start + p.size)) := by
          rw [coveredB_append, coveredB_cons, coveredB_nil, Bool.or_false]
        have hMc := hMcov j
        rw [coveredB_cons, hMs] at hMc
        simp only [Bool.or_eq_true, decide_eq_true_eq] at hMc
        rw [hL, hR]
        simp only [Bool.or_eq_true, decide_eq_true_eq]
        constructor
        · rintro (hA | hM | hD)
          · exact Or.inl (Or.inl hA)
          · by_cases hj : j < s
            · exact Or.inl (Or.inr ⟨hM.1, by omega⟩)
            · push_neg at hj
              rcases hMc.1 (Or.inl ⟨by omega, by omega⟩) with hr | hS
              · exact Or.inr (Or.inr hr)
              · exact Or.inr (Or.inl hS)
          · rcases hMc.1 (Or.inr hD) with hr | hS
            · exact Or.inr (Or.inr hr)
            · exact Or.inr (Or.inl hS)
        · rintro ((hA | hp) | hS | hr)
          · exact Or.inl hA
          · exact Or.inr (Or.inl ⟨hp.1, by omega⟩)
          · rcases hMc.2 (Or.inr hS) with hm | hD
            · exact Or.inr (Or.inl ⟨by omega, by omega⟩)
            · exact Or.inr (Or.inr hD)
          · rcases hMc.2 (Or.inl hr) with hm | hD
            · exact Or.inr (Or.inl ⟨by omega, by omega⟩)
            · exact Or.inr (Or.inr hD)
      · intro d hbP hbS hs hsn
        have hbM := hMbd d hbS hs hsn
        intro f hf
        rcases List.mem_append.1 hf with hf | hf
        · exact hbP f (List.mem_append_left _ hf)
        rcases List.mem_cons.1 hf with rfl | hf
        · have h1 := hbP p hpmem
          have h2 := hbM (deallocMergeNext s n S).1
            (List.mem_cons_self (deallocMergeNext s n S).1 (deallocMergeNext s n S).2)
          simp only
          constructor
          · omega
          · omega
        · exact hbM f (List.mem_cons_of_mem _ hf)
    · refine ⟨?_, ?_, ?_⟩
      · apply (canonical_append_iff _ _).2
        refine ⟨hcP, hMcan, ?_⟩
        intro a ha b hb
        have haend : a.start + a.size ≤ s := hPends a ha
        have hastrict : a.start + a.size < s := by
          rcases List.mem_append.1 ha with ha' | ha'
          · have := hP'p a ha'
            omega
          · rw [List.mem_singleton] at ha'
            subst ha'
            omega
        rcases List.mem_cons.1 hb with rfl | hb
        · omega
        · have := hM2hi b hb
          omega
      · intro j
        rw [coveredB_append, Bool.or_eq_true, hMcov j]
        constructor
        · rintro (h | h | h)
          · exact Or.inl h
          · exact Or.inr (Or.inr h)
          · exact Or.inr (Or.inl h)
        · rintro (h | h | h)
          · exact Or.inl h
          · exact Or.inr (Or.inr h)
          · exact Or.inr (Or.inl h)
      · intro d hbP hbS hs hsn
        have hbM := hMbd d hbS hs hsn
        intro f hf
        rcases List.mem_append.1 hf with hf | hf
        · exact hbP f hf
        · exact hbM f hf

/-- Effect of `deallocate`'s list repair on a canonical list when the freed
range is disjoint from the free blocks (no double free): the result is
canonical, covers exactly the old blocks plus the freed range, and stays in
bounds. -/
theorem deallocInsert_spec (E : List FreeExtent) (hc : Canonical E) (s n : Int) (hn : 1 ≤ n)
    (hdisj : ∀ j : Int, s ≤ j → j < s + n → coveredB E j = false) :
    Canonical (deallocInsert s n E) ∧
    (∀ j : Int, coveredB (deallocInsert s n E) j = true ↔
      coveredB E j = true ∨ (s ≤ j ∧ j < s + n)) ∧
    (∀ d : Int, InBounds d E → 0 ≤ s → s + n ≤ d → InBounds d (deallocInsert s n E)) := by
  rw [deallocInsert_eq_core]
  have hPS : E.takeWhile (fun e => e.start < s) ++ E.dropWhile (fun e => e.start < s) = E :=
    List.takeWhile_append_dropWhile _ _
  have hcPS : Canonical (E.takeWhile (fun e => e.start < s) ++
      E.dropWhile (fun e => e.start < s)) := by
    rw [hPS]
    exact hc
  obtain ⟨hcP, hcS, hcross⟩ := (canonical_append_iff _ _).1 hcPS
  have hPmem : ∀ p ∈ E.takeWhile (fun e => e.start < s), p ∈ E := by
    intro p hp
    rw [← hPS]
    exact List.mem_append_left _ hp
  have hSmem : ∀ c ∈ E.dropWhile (fun e => e.start < s), c ∈ E := by
    intro c hc'
    rw [← hPS]
    exact List.mem_append_right _ hc'
  have hPlt : ∀ p ∈ E.takeWhile (fun e => e.start < s), p.start < s := by
    intro p hp
    have := List.mem_takeWhile_imp hp
    simpa using this
  have hPends : ∀ p ∈ E.takeWhile (fun e => e.start < s), p.start + p.size ≤ s := by
    intro p hp
    by_contra hx
    push_neg at hx
    have hps : p.start < s := hPlt p hp
    have hcov : coveredB E s = true := coveredB_of_mem (hPmem p hp) (by omega) (by omega)
    rw [hdisj s le_rfl (by omega)] at hcov
    simp at hcov
  have hSlo : ∀ c ∈ E.dropWhile (fun e => e.start < s), s + n ≤ c.start := by
    rcases hS : E.dropWhile (fun e => e.start < s) with - | ⟨c, cs⟩
    · intro x hx
      rw [hS] at hx
      simp at hx
    · intro x hx
      rw [hS] at hx
      have hchead := dropWhile_head_false _ E c cs hS
      have hcge : s ≤ c.start := by simpa using hchead
      have hcmem : c ∈ E := hSmem c (by rw [hS]; exact List.mem_cons_self c cs)
      have hcpos : 0 < c.size := hc.2 c hcmem
      have hcn : s + n ≤ c.start := by
        by_contra hx2
        push_neg at hx2
        have hcov : coveredB E c.start = true := coveredB_of_mem hcmem le_rfl (by omega)
        rw [hdisj c.start hcge hx2] at hcov
        simp at hcov
      rcases List.mem_cons.1 hx with rfl | hx
      · exact hcn
      · have hpw : ∀ y ∈ cs, c.start + c.size < y.start :=
          ((canonical_cons_iff _ _).1 (hS ▸ hcS)).1
        have := hpw x hx
        omega
  obtain ⟨g1, g2, g3⟩ := deallocCore_spec s n hn _ _ hcP hcS hPends hSlo
  refine ⟨g1, ?_, ?_⟩
  · intro j
    rw [g2 j]
    have hEco : coveredB E j = (coveredB (E.takeWhile (fun e => e.start < s)) j ||
        coveredB (E.dropWhile (fun e => e.start < s)) j) := by
      conv_lhs => rw [← hPS]
      rw [coveredB_append]
    rw [hEco, Bool.or_eq_true]
    tauto
  · intro d hbd hs hsn
    refine g3 d ?_ ?_ hs hsn
    · intro p hp
      exact hbd p (hPmem p hp)
    · intro c hc'
      exact hbd c (hSmem c hc')

/-! ## The group scan -/

theorem bitGet_nil (t : Int) : bitGet [] t = 1 := by
  unfold bitGet
  split_ifs with h
  · exact List.getD_nil
  · rfl

theorem bitGet_neg (b : List Int) (t : Int) (h : t < 0) : bitGet b t = 1 := by
  unfold bitGet
  rw [if_neg (by omega)]

theorem bitGet_cons_zero (x : Int) (rest : List Int) : bitGet (x :: rest) 0 = x := by
  unfold bitGet
  rw [if_pos le_rfl]
  rfl

theorem bitGet_cons_pos (x : Int) (rest : List Int) (t : Int) (h : 1 ≤ t) :
    bitGet (x :: rest) t = bitGet rest (t - 1) := by
  unfold bitGet
  rw [if_pos (by omega), if_pos (by omega)]
  have hk : t.toNat = (t - 1).toNat + 1 := by omega
  rw [hk]
  exact List.getD_cons_succ

/-- Invariant of the `update_groups` scan, for both scan states: the
emitted groups are canonical, start at or after the scan position (or the
pending group start), and cover exactly the free positions of the remaining
bitmap (plus the pending run `[gs, i)` when inside a run). -/
theorem groupsAux_spec : ∀ (b : List Int) (i : Int),
    (Canonical (groupsAux b i none) ∧
     (∀ e ∈ groupsAux b i none, i ≤ e.start) ∧
     (∀ j : Int, coveredB (groupsAux b i none) j = true ↔ bitGet b (j - i) = 0)) ∧
    (∀ gs : Int, gs < i →
      Canonical (groupsAux b i (some gs)) ∧
      (∀ e ∈ groupsAux b i (some gs), gs ≤ e.start) ∧
      (∀ j : Int, coveredB (groupsAux b i (some gs)) j = true ↔
        ((gs ≤ j ∧ j < i) ∨ bitGet b (j - i) = 0))) := by
  intro b
  induction b with
  | nil =>
    intro i
    constructor
    · refine ⟨⟨List.Pairwise.nil, ?_⟩, ?_, ?_⟩
      · intro e he
        rw [show groupsAux [] i none = [] from rfl] at he
        simp at he
      · intro e he
        rw [show groupsAux [] i none = [] from rfl] at he
        simp at he
      intro j
      rw [show groupsAux [] i none = [] from rfl, coveredB_nil, bitGet_nil]
      constructor
      · intro h
        simp at h
      · intro h
        omega
    · intro gs hgs
      rw [show groupsAux [] i (some gs) = [⟨gs, i - gs⟩] from rfl]
      refine ⟨⟨List.pairwise_singleton _ _, ?_⟩, ?_, ?_⟩
      · intro e he
        rw [List.mem_singleton] at he
        subst he
        show (0 : Int) < i - gs
        omega
      · intro e he
        rw [List.mem_singleton] at he
        subst he
        exact le_rfl
      · intro j
        rw [coveredB_cons, coveredB_nil, Bool.or_false, decide_eq_true_eq, bitGet_nil]
        show (gs ≤ j ∧ j < gs + (i - gs)) ↔ _
        constructor
        · intro h
          exact Or.inl ⟨h.1, by omega⟩
        · rintro (h | h)
          · exact ⟨h.1, by omega⟩
          · omega
  | cons x rest ih =>
    intro i
    constructor
    · rw [show groupsAux (x :: rest) i none =
          (if x = 0 then groupsAux rest (i + 1) (some i)
           else groupsAux rest (i + 1) none) from rfl]
      split_ifs with hx
      · obtain ⟨hcan, hlb, hcov⟩ := (ih (i + 1)).2 i (by omega)
        refine ⟨hcan, hlb, ?_⟩
        intro j
        rw [hcov j]
        rcases lt_trichotomy j i with hj | hj | hj
        · rw [bitGet_neg rest _ (by omega), bitGet_neg (x :: rest) _ (by omega)]
          constructor
          · rintro (h | h)
            · omega
            · omega
          · intro h
            omega
        · subst hj
          rw [show j - j = (0 : Int) by omega, bitGet_cons_zero]
          constructor
          · intro _
            exact hx
          · intro _
            exact Or.inl ⟨le_rfl, by omega⟩
        · rw [bitGet_cons_pos x rest _ (by omega),
            show j - i - 1 = j - (i + 1) by ring]
          constructor
          · rintro (h | h)
            · omega
            · exact h
          · intro h
            exact Or.inr h
      · obtain ⟨hcan, hlb, hcov⟩ := (ih (i + 1)).1
        refine ⟨hcan, fun e he => by have := hlb e he; omega, ?_⟩
        intro j
        rw [hcov j]
        rcases lt_trichotomy j i with hj | hj | hj
        · rw [bitGet_neg rest _ (by omega), bitGet_neg (x :: rest) _ (by omega)]
        · subst hj
          rw [show j - j = (0 : Int) by omega, bitGet_cons_zero,
            bitGet_neg rest _ (by omega)]
          constructor
          · intro h
            omega
          · intro h
            exact absurd h hx
        · rw [bitGet_cons_pos x rest _ (by omega),
            show j - i - 1 = j - (i + 1) by ring]
    · intro gs hgs
      rw [show groupsAux (x :: rest) i (some gs) =
          (if x = 0 then groupsAux rest (i + 1) (some gs)
           else ⟨gs, i - gs⟩ :: groupsAux rest (i + 1) none) from rfl]
      split_ifs with hx
      · obtain ⟨hcan, hlb, hcov⟩ := (ih (i + 1)).2 gs (by omega)
        refine ⟨hcan, hlb, ?_⟩
        intro j
        rw [hcov j]
        rcases lt_trichotomy j i with hj | hj | hj
        · rw [bitGet_neg rest _ (by omega), bitGet_neg (x :: rest) _ (by omega)]
          constructor
          · rintro (h | h)
            · exact Or.inl ⟨h.1, by omega⟩
            · omega
          · rintro (h | h)
            · exact Or.inl ⟨h.1, by omega⟩
            · omega
        · subst hj
          rw [show j - j = (0 : Int) by omega, bitGet_cons_zero]
          constructor
          · intro _
            exact Or.inr hx
          · intro _
            exact Or.inl ⟨by omega, by omega⟩
        · rw [bitGet_cons_pos x rest _ (by omega),
            show j - i - 1 = j - (i + 1) by ring]
          constructor
          · rintro (h | h)
            · omega
            · exact Or.inr h
          · rintro (h | h)
            · omega
            · exact Or.inr h
      · obtain ⟨hcan, hlb, hcov⟩ := (ih (i + 1)).1
        refine ⟨?_, ?_, ?_⟩
        · refine (canonical_cons_iff _ _).2 ⟨?_, ?_, hcan⟩
          · intro f hf
            have := hlb f hf
            show gs + (i - gs) < f.start
            omega
          · show (0 : Int) < i - gs
            omega
        · intro e he
          rcases List.mem_cons.1 he with rfl | he
          · exact le_rfl
          · have := hlb e he
            omega
        · intro j
          rw [coveredB_cons, Bool.or_eq_true, decide_eq_true_eq, hcov j]
          rcases lt_trichotomy j i with hj | hj | hj
          · rw [bitGet_neg rest _ (by omega), bitGet_neg (x :: rest) _ (by omega)]
            show (gs ≤ j ∧ j < gs + (i - gs)) ∨ (1 : Int) = 0 ↔ _
            constructor
            · rintro (h | h)
              · exact Or.inl ⟨h.1, by omega⟩
              · omega
            · rintro (h | h)
              · exact Or.inl ⟨h.1, by omega⟩
              · omega
          · subst hj
            rw [show j - j = (0 : Int) by omega, bitGet_cons_zero,
              bitGet_neg rest _ (by omega)]
            show (gs ≤ j ∧ j < gs + (j - gs)) ∨ (1 : Int) = 0 ↔ _
            constructor
            · rintro (h | h)
              · omega
              · omega
            · rintro (h | h)
              · omega
              · exact absurd h hx
          · rw [bitGet_cons_pos x rest _ (by omega),
              show j - i - 1 = j - (i + 1) by ring]
            show (gs ≤ j ∧ j < gs + (i - gs)) ∨ bitGet rest (j - (i + 1)) = 0 ↔ _
            constructor
            · rintro (h | h)
              · omega
              · exact Or.inr h
            · rintro (h | h)
              · omega
              · exact Or.inr h

/-- `update_groups` produces a canonical list covering exactly the free
(zero) positions of the bitmap. -/
theorem update_groups_spec (b : List Int) :
    Canonical (update_groups b) ∧
    (∀ j : Int, coveredB (update_groups b) j = true ↔ bitGet b j = 0) := by
  obtain ⟨⟨hcan, -, hcov⟩, -⟩ := groupsAux_spec b 0
  refine ⟨hcan, ?_⟩
  intro j
  have h := hcov j
  rwa [show j - 0 = j by ring] at h

/-- The scan's total group length equals the number of zero entries. -/
theorem groupsAux_sum : ∀ (b : List Int) (i : Int),
    ((groupsAux b i none).map FreeExtent.size).sum = (b.count 0 : Int) ∧
    ∀ gs : Int, ((groupsAux b i (some gs)).map FreeExtent.size).sum =
      (i - gs) + (b.count 0 : Int) := by
  intro b
  induction b with
  | nil =>
    intro i
    constructor
    · rw [show groupsAux [] i none = [] from rfl]
      simp
    · intro gs
      rw [show groupsAux [] i (some gs) = [⟨gs, i - gs⟩] from rfl]
      simp
  | cons x rest ih =>
    intro i
    have hcount : ((x :: rest).count 0 : Int) =
        (if x = 0 then 1 else 0) + (rest.count 0 : Int) := by
      rw [List.count_cons]
      by_cases hx : x = 0
      · rw [if_pos hx, if_pos (by simp [hx])]
        push_cast
        ring
      · rw [if_neg hx, if_neg (by simp [hx])]
        push_cast
        ring
    constructor
    · rw [show groupsAux (x :: rest) i none =
          (if x = 0 then groupsAux rest (i + 1) (some i)
           else groupsAux rest (i + 1) none) from rfl]
      split_ifs with hx
      · rw [(ih (i + 1)).2 i]
        rw [hcount, if_pos hx]
        ring
      · rw [(ih (i + 1)).1, hcount, if_neg hx]
        ring
    · intro gs
      rw [show groupsAux (x :: rest) i (some gs) =
          (if x = 0 then groupsAux rest (i + 1) (some gs)
           else ⟨gs, i - gs⟩ :: groupsAux rest (i + 1) none) from rfl]
      split_ifs with hx
      · rw [(ih (i + 1)).2 gs, hcount, if_pos hx]
        ring
      · rw [List.map_cons, List.sum_cons, (ih (i + 1)).1, hcount, if_neg hx]
        show i - gs + _ = _
        ring

theorem update_groups_sum (b : List Int) :
    ((update_groups b).map FreeExtent.size).sum = (b.count 0 : Int) :=
  (groupsAux_sum b 0).1

/-- On a 0/1 bitmap the zero count and one count add up to the length. -/
theorem count_zero_one (b : List Int) (h : ∀ x ∈ b, x = 0 ∨ x = 1) :
    b.count 0 + b.count 1 = b.length := by
  induction b with
  | nil => rfl
  | cons x rest ih =>
    have hrest := ih (fun y hy => h y (List.mem_cons_of_mem x hy))
    rw [List.count_cons, List.count_cons, List.length_cons]
    rcases h x (List.mem_cons_self x rest) with hx | hx
    · rw [if_pos (by simp [hx]), if_neg (by simp [hx])]
      omega
    · rw [if_neg (by simp [hx]), if_pos (by simp [hx])]
      omega

/-- Entries of a range write are the written value or old entries. -/
theorem setRangeAux_mem (v s e : Int) : ∀ (b : List Int) (i : Int),
    ∀ x ∈ setRangeAux v s e b i, x = v ∨ x ∈ b := by
  intro b
  induction b with
  | nil =>
    intro i x hx
    simp [setRangeAux] at hx
  | cons y rest ih =>
    intro i x hx
    rw [setRangeAux] at hx
    rcases List.mem_cons.1 hx with rfl | hx
    · split_ifs with h
      · exact Or.inl rfl
      · exact Or.inr (List.mem_cons_self y rest)
    · rcases ih (i + 1) x hx with h | h
      · exact Or.inl h
      · exact Or.inr (List.mem_cons_of_mem y h)

theorem pairwise_mem_rel {α : Type} {R : α → α → Prop} :
    ∀ {l : List α}, List.Pairwise R l → ∀ a ∈ l, ∀ b ∈ l, a = b ∨ R a b ∨ R b a := by
  intro l
  induction l with
  | nil =>
    intro _ a ha
    simp at ha
  | cons x rest ih =>
    intro hp a ha b hb
    obtain ⟨hx, hrest⟩ := List.pairwise_cons.1 hp
    rcases List.mem_cons.1 ha with h1 | h1
    · rcases List.mem_cons.1 hb with h2 | h2
      · exact Or.inl (h1.trans h2.symm)
      · subst h1
        exact Or.inr (Or.inl (hx b h2))
    · rcases List.mem_cons.1 hb with h2 | h2
      · subst h2
        exact Or.inr (Or.inr (hx a h1))
      · exact ih hrest a h1 b h2

/-! ## The machine invariant -/

theorem allocate_success_eq (m : HybridSpaceManager) (s n : Int)
    (h1 : ¬(s < 0 ∨ s + n > m.disk_size))
    (h2 : anyAllocated m.bitmap s (s + n) = false) :
    allocate m s n =
      ({ disk_size := m.disk_size
         bitmap := setRange 1 s (s + n) m.bitmap
         free_list := allocRemove s n m.free_list
         groups := update_groups (setRange 1 s (s + n) m.bitmap) }, true, s) := by
  unfold allocate
  rw [if_neg h1, if_neg (by rw [h2]; exact Bool.false_ne_true)]

theorem deallocate_success_eq (m : HybridSpaceManager) (s n : Int)
    (h1 : ¬(s + n > m.disk_size ∨ s < 0)) :
    deallocate m s n =
      ({ disk_size := m.disk_size
         bitmap := setRange 0 s (s + n) m.bitmap
         free_list := deallocInsert s n m.free_list
         groups := update_groups (setRange 0 s (s + n) m.bitmap) }, true) := by
  unfold deallocate
  rw [if_neg h1]

theorem managerInv_init (d : Int) (hd : 1 ≤ d) : ManagerInv (HybridSpaceManager.init d) := by
  have h1 : (HybridSpaceManager.init d).disk_size = d := rfl
  have h2 : (HybridSpaceManager.init d).bitmap = List.replicate d.toNat 0 := rfl
  have h3 : (HybridSpaceManager.init d).free_list = [⟨0, d⟩] := rfl
  have h4 : (HybridSpaceManager.init d).groups =
      update_groups (List.replicate d.toNat 0) := rfl
  unfold ManagerInv
  rw [h1, h2, h3, h4]
  refine ⟨by omega, by simp, ?_, ?_, ?_, ?_, rfl⟩
  · intro x hx
    rw [List.eq_of_mem_replicate hx]
    exact Or.inl rfl
  · refine ⟨List.pairwise_singleton _ _, ?_⟩
    intro e he
    rw [List.mem_singleton] at he
    subst he
    show (0 : Int) < d
    omega
  · intro e he
    rw [List.mem_singleton] at he
    subst he
    refine ⟨le_rfl, ?_⟩
    show (0 : Int) + d ≤ d
    omega
  · intro k hk
    rw [List.length_replicate] at hk
    have hbit : bitGet (List.replicate d.toNat 0) (k : Int) = 0 := by
      unfold bitGet
      rw [if_pos (by omega)]
      rw [show ((k : Int)).toNat = k by omega]
      simp [List.getD_eq_getElem, hk, List.getElem_replicate]
    rw [hbit]
    constructor
    · intro _
      exact coveredB_of_mem (List.mem_singleton.2 rfl)
        (by show (0 : Int) ≤ (k : Int); omega) (by show (k : Int) < 0 + d; omega)
    · intro _
      rfl

theorem managerInv_allocate (m : HybridSpaceManager) (s n : Int) (hInv : ManagerInv m)
    (hv : ValidAlloc m s n) : ManagerInv (allocate m s n).1 := by
  obtain ⟨hd, hlen, hvals, hcan, hbd, hcov, hgr⟩ := hInv
  obtain ⟨hn, hs, hsn, hany⟩ := hv
  rw [allocate_success_eq m s n (by omega) hany]
  have hfree : ∀ j : Int, s ≤ j → j < s + n → bitGet m.bitmap j = 0 := by
    intro j h1 h2
    have hjl : j.toNat < m.bitmap.length := by rw [hlen]; omega
    have hne := anyAllocAux_false_forall s (s + n) m.bitmap 0 hany j.toNat hjl
      (by omega) (by omega)
    have hmem : m.bitmap.getD j.toNat 1 ∈ m.bitmap := by
      rw [List.getD_eq_getElem _ _ hjl]
      exact List.getElem_mem _
    have hbg : bitGet m.bitmap j = m.bitmap.getD j.toNat 1 := by
      unfold bitGet
      rw [if_pos (by omega)]
    rcases hvals _ hmem with h0 | h1'
    · rw [hbg]
      exact h0
    · rw [hbg]
      exact absurd h1' hne
  have hcovr : ∀ j : Int, s ≤ j → j < s + n → coveredB m.free_list j = true := by
    intro j h1 h2
    have hjl : j.toNat < m.bitmap.length := by rw [hlen]; omega
    have hiff := hcov j.toNat hjl
    rw [show ((j.toNat : Nat) : Int) = j by omega] at hiff
    exact hiff.1 (hfree j h1 h2)
  obtain ⟨g1, g2, g3⟩ := allocRemove_spec m.free_list hcan s n hn hcovr
  refine ⟨hd, ?_, ?_, g1, g3 m.disk_size hbd, ?_, rfl⟩
  · show (setRange 1 s (s + n) m.bitmap).length = m.disk_size.toNat
    rw [setRange_length, hlen]
  · intro x hx
    rcases setRangeAux_mem 1 s (s + n) m.bitmap 0 x hx with h | h
    · exact Or.inr h
    · exact hvals x h
  · intro k hk
    rw [setRange_length] at hk
    show bitGet (setRange 1 s (s + n) m.bitmap) (k : Int) = 0 ↔ _
    rw [bitGet_setRange, g2 (k : Int)]
    by_cases hr : s ≤ (k : Int) ∧ (k : Int) < s + n
    · rw [if_pos ⟨hr.1, hr.2, by omega, by omega⟩]
      constructor
      · intro h
        exact absurd h (by norm_num)
      · rintro ⟨-, hnr⟩
        exact absurd hr hnr
    · rw [if_neg (by omega)]
      have hiff := hcov k hk
      rw [hiff]
      exact ⟨fun h => ⟨h, hr⟩, fun h => h.1⟩

theorem managerInv_deallocate (m : HybridSpaceManager) (s n : Int) (hInv : ManagerInv m)
    (hv : ValidDealloc m s n) : ManagerInv (deallocate m s n).1 := by
  obtain ⟨hd, hlen, hvals, hcan, hbd, hcov, hgr⟩ := hInv
  obtain ⟨hn, hs, hsn, hall⟩ := hv
  rw [deallocate_success_eq m s n (by omega)]
  have hdisj : ∀ j : Int, s ≤ j → j < s + n → coveredB m.free_list j = false := by
    intro j h1 h2
    have hjl : j.toNat < m.bitmap.length := by rw [hlen]; omega
    have h1' := hall j.toNat hjl (by omega) (by omega)
    rw [show ((j.toNat : Nat) : Int) = j by omega] at h1'
    have hiff := hcov j.toNat hjl
    rw [show ((j.toNat : Nat) : Int) = j by omega] at hiff
    rw [← Bool.not_eq_true]
    intro hx
    have := hiff.2 hx
    omega
  obtain ⟨g1, g2, g3⟩ := deallocInsert_spec m.free_list hcan s n hn hdisj
  refine ⟨hd, ?_, ?_, g1, g3 m.disk_size hbd hs hsn, ?_, rfl⟩
  · show (setRange 0 s (s + n) m.bitmap).length = m.disk_size.toNat
    rw [setRange_length, hlen]
  · intro x hx
    rcases setRangeAux_mem 0 s (s + n) m.bitmap 0 x hx with h | h
    · exact Or.inl h
    · exact hvals x h
  · intro k hk
    rw [setRange_length] at hk
    show bitGet (setRange 0 s (s + n) m.bitmap) (k : Int) = 0 ↔ _
    rw [bitGet_setRange, g2 (k : Int)]
    by_cases hr : s ≤ (k : Int) ∧ (k : Int) < s + n
    · rw [if_pos ⟨hr.1, hr.2, by omega, by omega⟩]
      constructor
      · intro _
        exact Or.inr hr
      · intro _
        rfl
    · rw [if_neg (by omega)]
      have hiff := hcov k hk
      rw [hiff]
      constructor
      · intro h
        exact Or.inl h
      · rintro (h | h)
        · exact h
        · exact absurd h hr

/-- Every reachable state satisfies the machine invariant. -/
theorem reachable_managerInv (m : HybridSpaceManager) (h : Reachable m) : ManagerInv m := by
  induction h with
  | init d hd => exact managerInv_init d hd
  | alloc m s n hm hv ih => exact managerInv_allocate m s n ih hv
  | dealloc m s n hm hv ih => exact managerInv_deallocate m s n ih hv

theorem bool_eq_of_iff {b1 b2 : Bool} {P : Prop} (h1 : b1 = true ↔ P)
    (h2 : b2 = true ↔ P) : b1 = b2 := by
  cases b1 <;> cases b2 <;> simp_all

/-- Under the machine invariant the free list covers exactly the free
blocks, at every integer position (off-device positions being neither free
nor covered). -/
theorem managerInv_covered_iff (m : HybridSpaceManager) (hInv : ManagerInv m) :
    ∀ j : Int, coveredB m.free_list j = true ↔ bitGet m.bitmap j = 0 := by
  obtain ⟨hd, hlen, hvals, hcan, hbd, hcov, hgr⟩ := hInv
  intro j
  by_cases hin : 0 ≤ j ∧ j.toNat < m.bitmap.length
  · have hiff := hcov j.toNat hin.2
    rw [show ((j.toNat : Nat) : Int) = j by omega] at hiff
    exact hiff.symm
  · constructor
    · intro hx
      rcases (coveredB_eq_true _ _).1 hx with ⟨e, he, h1, h2⟩
      have hb := hbd e he
      exfalso
      rw [hlen] at hin
      omega
    · intro hx
      exfalso
      unfold bitGet at hx
      by_cases h0 : 0 ≤ j
      · rw [if_pos h0] at hx
        have hge : m.bitmap.length ≤ j.toNat := by omega
        rw [List.getD_eq_default _ _ hge] at hx
        omega
      · rw [if_neg h0] at hx
        omega

/-- Invariant 4: the groups recomputed from the bitmap coincide with the
incrementally maintained free list. -/
theorem managerInv_groups_eq (m : HybridSpaceManager) (hInv : ManagerInv m) :
    update_groups m.bitmap = m.free_list := by
  have hcovfl := managerInv_covered_iff m hInv
  obtain ⟨hcanG, hcovG⟩ := update_groups_spec m.bitmap
  apply canonical_covered_unique _ _ hcanG hInv.2.2.2.1
  intro j
  exact bool_eq_of_iff (hcovG j) (hcovfl j)

/-- Invariant 1: a block is marked allocated iff no free-list extent covers
it. -/
theorem managerInv_inv1 (m : HybridSpaceManager) (hInv : ManagerInv m) :
    ∀ k : Nat, k < m.bitmap.length →
      (bitGet m.bitmap k = 1 ↔ coveredB m.free_list k = false) := by
  obtain ⟨hd, hlen, hvals, hcan, hbd, hcov, hgr⟩ := hInv
  intro k hk
  have hiff := hcov k hk
  have hmem : m.bitmap.getD k 1 ∈ m.bitmap := by
    rw [List.getD_eq_getElem _ _ hk]
    exact List.getElem_mem _
  have hbg : bitGet m.bitmap (k : Int) = m.bitmap.getD k 1 := by
    unfold bitGet
    rw [if_pos (by omega), show ((k : Int)).toNat = k by omega]
  rcases hvals _ hmem with h0 | h1
  · have hb0 : bitGet m.bitmap (k : Int) = 0 := by rw [hbg]; exact h0
    have hcv : coveredB m.free_list (k : Int) = true := hiff.1 hb0
    constructor
    · intro hx
      exact absurd (hb0.symm.trans hx) (by norm_num)
    · intro hx
      rw [hcv] at hx
      simp at hx
  · have hb1 : bitGet m.bitmap (k : Int) = 1 := by rw [hbg]; exact h1
    have hcv : coveredB m.free_list (k : Int) = false := by
      rw [← Bool.not_eq_true]
      intro hx
      have := hiff.2 hx
      omega
    exact ⟨fun _ => hcv, fun _ => hb1⟩

/-- Invariant 3: total free-extent length plus allocated-block count equals
the capacity. -/
theorem managerInv_inv3 (m : HybridSpaceManager) (hInv : ManagerInv m) :
    (m.free_list.map FreeExtent.size).sum + (m.bitmap.count 1 : Int) = m.disk_size := by
  have hg := managerInv_groups_eq m hInv
  obtain ⟨hd, hlen, hvals, -, -, -, -⟩ := hInv
  have hsum := update_groups_sum m.bitmap
  rw [← hg, hsum]
  have hcnt := count_zero_one m.bitmap hvals
  rw [hlen] at hcnt
  omega

/-! ## Helpers for round-trip and double-free reasoning -/

/-- Clearing a range that was free before it was marked restores the
original bitmap. -/
theorem setRangeAux_restore (s e : Int) : ∀ (b : List Int) (i : Int),
    (∀ (k : Nat) (hk : k < b.length), s ≤ i + k → i + (k : Int) < e → b[k] = 0) →
    setRangeAux 0 s e (setRangeAux 1 s e b i) i = b := by
  intro b
  induction b with
  | nil => intro i _; rfl
  | cons x rest ih =>
    intro i h
    rw [setRangeAux, setRangeAux]
    by_cases hc : s ≤ i ∧ i < e
    · rw [if_pos hc]
      have hx : x = 0 := by
        have := h 0 (by simp) (by simpa using hc.1) (by simpa using hc.2)
        simpa using this
      rw [hx]
      rw [ih (i + 1) ?_]
      intro k hk h1 h2
      have := h (k + 1) (by simpa using hk) (by push_cast at h1 ⊢; omega)
        (by push_cast at h2 ⊢; omega)
      simpa using this
    · rw [if_neg hc, if_neg hc]
      rw [ih (i + 1) ?_]
      intro k hk h1 h2
      have := h (k + 1) (by simpa using hk) (by push_cast at h1 ⊢; omega)
        (by push_cast at h2 ⊢; omega)
      simpa using this

theorem setRange_restore (s e : Int) (b : List Int)
    (h : ∀ (k : Nat) (hk : k < b.length), s ≤ (k : Int) → (k : Int) < e → b[k] = 0) :
    setRange 0 s e (setRange 1 s e b) = b := by
  unfold setRange
  refine setRangeAux_restore s e b 0 ?_
  intro k hk h1 h2
  exact h k hk (by omega) (by omega)

/-- Whatever the prior occupancy, after `deallocate`'s list insertion the
freed range is covered by the free list (double frees included). -/
theorem deallocInsert_covers (E : List FreeExtent) (hpos : ∀ e ∈ E, 0 ≤ e.size)
    (s n : Int) (_hn : 1 ≤ n) (j : Int) (hj1 : s ≤ j) (hj2 : j < s + n) :
    coveredB (deallocInsert s n E) j = true := by
  rw [deallocInsert_eq_core]
  have hSpos : ∀ c ∈ E.dropWhile (fun e => e.start < s), 0 ≤ c.size := by
    intro c hc'
    exact hpos c ((List.dropWhile_sublist _).subset hc')
  have hM1 : (deallocMergeNext s n (E.dropWhile (fun e => e.start < s))).1.start = s ∧
      n ≤ (deallocMergeNext s n (E.dropWhile (fun e => e.start < s))).1.size := by
    rcases hS : E.dropWhile (fun e => e.start < s) with - | ⟨c, cs⟩
    · rw [hS]
      exact ⟨rfl, le_refl n⟩
    · have hc0 : 0 ≤ c.size := hSpos c (by rw [hS]; exact List.mem_cons_self c cs)
      rw [hS, deallocMergeNext]
      split_ifs with hadj
      · refine ⟨rfl, ?_⟩
        show n ≤ n + c.size
        omega
      · exact ⟨rfl, le_refl n⟩
  rcases hL : (E.takeWhile (fun e => e.start < s)).getLast? with - | p
  · have hcore : deallocCore s n (E.takeWhile (fun e => e.start < s))
        (E.dropWhile (fun e => e.start < s)) =
        (deallocMergeNext s n (E.dropWhile (fun e => e.start < s))).1 ::
          (deallocMergeNext s n (E.dropWhile (fun e => e.start < s))).2 := by
      simp only [deallocCore, hL]
    rw [hcore]
    exact coveredB_of_mem (List.mem_cons_self _ _) (by omega) (by omega)
  · have hpmem : p ∈ E.takeWhile (fun e => e.start < s) := by
      have hne : E.takeWhile (fun e => e.start < s) ≠ [] := by
        intro hx
        rw [hx] at hL
        simp at hL
      rw [← List.dropLast_append_getLast hne]
      refine List.mem_append_right _ ?_
      rw [List.getLast?_eq_getLast _ hne] at hL
      injection hL with hL
      rw [hL]
      exact List.mem_singleton.2 rfl
    have hp0 : 0 ≤ p.size := hpos p ((List.takeWhile_sublist _).subset hpmem)
    by_cases hadj : p.start + p.size = s
    · have hcore : deallocCore s n (E.takeWhile (fun e => e.start < s))
          (E.dropWhile (fun e => e.start < s)) =
          (E.takeWhile (fun e => e.start < s)).dropLast ++
            ⟨p.start, p.size + (deallocMergeNext s n
              (E.dropWhile (fun e => e.start < s))).1.size⟩ ::
              (deallocMergeNext s n (E.dropWhile (fun e => e.start < s))).2 := by
        simp only [deallocCore, hL, if_pos hadj]
      rw [hcore, coveredB_append, Bool.or_eq_true]
      refine Or.inr (coveredB_of_mem (List.mem_cons_self _ _) ?_ ?_)
      · show p.start ≤ j
        omega
      · show j < p.start + (p.size + _)
        omega
    · have hcore : deallocCore s n (E.takeWhile (fun e => e.start < s))
          (E.dropWhile (fun e => e.start < s)) =
          E.takeWhile (fun e => e.start < s) ++
            (deallocMergeNext s n (E.dropWhile (fun e => e.start < s))).1 ::
              (deallocMergeNext s n (E.dropWhile (fun e => e.start < s))).2 := by
        simp only [deallocCore, hL, if_neg hadj]
      rw [hcore, coveredB_append, Bool.or_eq_true]
      exact Or.inr (coveredB_of_mem (List.mem_cons_self _ _) (by omega) (by omega))

/-- Allocating an entirely-free range and then deallocating it restores the
free list exactly: the removal deletes exactly the range from the covered
blocks, the insertion adds it back, and canonical covers are unique. -/
theorem dealloc_alloc_roundtrip (E : List FreeExtent) (hc : Canonical E) (s n : Int)
    (hn : 1 ≤ n) (hcov : ∀ j : Int, s ≤ j → j < s + n → coveredB E j = true) :
    deallocInsert s n (allocRemove s n E) = E := by
  obtain ⟨g1, g2, -⟩ := allocRemove_spec E hc s n hn hcov
  have hdisj : ∀ j : Int, s ≤ j → j < s + n → coveredB (allocRemove s n E) j = false := by
    intro j h1 h2
    rw [← Bool.not_eq_true]
    intro hx
    exact ((g2 j).1 hx).2 ⟨h1, h2⟩
  obtain ⟨k1, k2, -⟩ := deallocInsert_spec (allocRemove s n E) g1 s n hn hdisj
  apply canonical_covered_unique _ _ k1 hc
  intro j
  apply bool_eq_of_iff (k2 j)
  constructor
  · intro hE
    by_cases hr : s ≤ j ∧ j < s + n
    · exact Or.inr hr
    · exact Or.inl ((g2 j).2 ⟨hE, hr⟩)
  · rintro (hx | hr)
    · exact ((g2 j).1 hx).1
    · exact hcov j hr.1 hr.2

/-! ## The claims -/

/-- C1: for every sequence of valid allocate and deallocate calls starting
from a freshly constructed manager, after every call the state satisfies
invariants 1-4 of the spec: (1) a block's bitmap flag is allocated iff the
block is not covered by any free-list extent; (2) free-list extents are
pairwise non-overlapping, strictly increasing in start, and never adjacent
(consecutive extents satisfy `a.start + a.size < b.start`, with positive
sizes); (3) the sum of extent lengths plus the count of allocated blocks
equals `disk_size`; (4) the groups derived from the bitmap equal the
free-list extents as index ranges. -/
theorem C1_invariant_preservation (m : HybridSpaceManager) (h : Reachable m) :
    (∀ k : Nat, k < m.bitmap.length →
      (bitGet m.bitmap k = 1 ↔ coveredB m.free_list k = false)) ∧
    (List.Chain' (fun a b : FreeExtent => a.start + a.size < b.start) m.free_list ∧
      ∀ e ∈ m.free_list, 0 < e.size) ∧
    (m.free_list.map FreeExtent.size).sum + (m.bitmap.count 1 : Int) = m.disk_size ∧
    (m.groups = update_groups m.bitmap ∧ m.groups = m.free_list) := by
  have hInv := reachable_managerInv m h
  refine ⟨managerInv_inv1 m hInv, ⟨hInv.2.2.2.1.1.chain', hInv.2.2.2.1.2⟩,
    managerInv_inv3 m hInv, hInv.2.2.2.2.2.2, ?_⟩
  rw [hInv.2.2.2.2.2.2, managerInv_groups_eq m hInv]

/-- Witness for C1 at the freshly constructed 50-block manager. -/
theorem C1_invariant_preservation_witness :
    (HybridSpaceManager.init 50).groups =
      update_groups (HybridSpaceManager.init 50).bitmap ∧
    (HybridSpaceManager.init 50).groups = (HybridSpaceManager.init 50).free_list :=
  (C1_invariant_preservation (HybridSpaceManager.init 50)
    (Reachable.init 50 (by norm_num))).2.2.2

/-- Counterexample to C2 as stated: the two rejection scenarios of the spec
(`allocate(48, 5)` out of range on a fresh 50-block device, `allocate(2, 2)`
over allocated blocks after `allocate(0, 5)`) both return the same value
`(False, -1)`, so the result does not tell the caller which error kind
occurred. -/
theorem C2_counterexample :
    (allocate (HybridSpaceManager.init 50) 48 5).2 = (false, -1) ∧
    (allocate (allocate (HybridSpaceManager.init 50) 0 5).1 2 2).2 = (false, -1) ∧
    (allocate (HybridSpaceManager.init 50) 48 5).2 =
      (allocate (allocate (HybridSpaceManager.init 50) 0 5).1 2 2).2 := by
  refine ⟨by decide, by decide, by decide⟩

/-- C2 amended: `allocate(48, 5)` on a 50-block device fails, and
`allocate(2, 2)` after a successful `allocate(0, 5)` fails; but both
failures return the identical value `(False, -1)` — the error kind is not
reported to the caller. -/
theorem C2_rejection_results :
    (allocate (HybridSpaceManager.init 50) 0 5).2 = (true, 0) ∧
    (allocate (HybridSpaceManager.init 50) 48 5).2 = (false, -1) ∧
    (allocate (allocate (HybridSpaceManager.init 50) 0 5).1 2 2).2 = (false, -1) := by
  refine ⟨by decide, by decide, by decide⟩

/-- Counterexample to C3 as stated: a zero-count request is not rejected —
`allocate(10, 0)` on a fresh 50-block manager returns success `(True, 10)`
and `deallocate(10, 0)` returns `True`; no count check exists. -/
theorem C3_counterexample :
    (allocate (HybridSpaceManager.init 50) 10 0).2 = (true, 10) ∧
    (deallocate (HybridSpaceManager.init 50) 10 0).2 = true := by
  refine ⟨by decide, by decide⟩

/-- C3 amended: the code performs no count check at all; for every `n ≤ 0`
whose range check passes (`0 ≤ start` and `start + n ≤ disk_size`), both
`allocate(start, n)` and `deallocate(start, n)` return success rather than
an `InvalidCount` failure. -/
theorem C3_no_invalid_count_check (m : HybridSpaceManager) (s n : Int) (hn : n ≤ 0)
    (hs : 0 ≤ s) (hsn : s + n ≤ m.disk_size) :
    (allocate m s n).2.1 = true ∧ (deallocate m s n).2 = true := by
  have hany : anyAllocated m.bitmap s (s + n) = false :=
    anyAllocated_empty_range m.bitmap s (s + n) (by omega)
  rw [allocate_success_eq m s n (by omega) hany, deallocate_success_eq m s n (by omega)]
  exact ⟨rfl, rfl⟩

/-- Witness for the amended C3 at `start = 10`, `n = 0` on a fresh 50-block
manager. -/
theorem C3_no_invalid_count_check_witness :
    (allocate (HybridSpaceManager.init 50) 10 0).2.1 = true ∧
    (deallocate (HybridSpaceManager.init 50) 10 0).2 = true :=
  C3_no_invalid_count_check (HybridSpaceManager.init 50) 10 0 (by norm_num)
    (by norm_num) (by decide)

/-- C4: a failed allocate or deallocate returns the manager state exactly
as it was before the call — bitmap, free list and groups unchanged (both
checks run before any mutation). -/
theorem C4_failure_frame (m : HybridSpaceManager) (s n : Int) :
    ((allocate m s n).2.1 = false → (allocate m s n).1 = m) ∧
    ((deallocate m s n).2 = false → (deallocate m s n).1 = m) := by
  constructor
  · unfold allocate
    split_ifs with h1 h2
    · intro _
      rfl
    · intro _
      rfl
    · intro h
      simp at h
  · unfold deallocate
    split_ifs with h1
    · intro _
      rfl
    · intro h
      simp at h

/-- Witness for C4 at two concrete failing calls on a fresh 50-block
manager. -/
theorem C4_failure_frame_witness :
    (allocate (HybridSpaceManager.init 50) 48 5).1 = HybridSpaceManager.init 50 ∧
    (deallocate (HybridSpaceManager.init 50) 48 5).1 = HybridSpaceManager.init 50 :=
  ⟨(C4_failure_frame (HybridSpaceManager.init 50) 48 5).1 (by decide),
   (C4_failure_frame (HybridSpaceManager.init 50) 48 5).2 (by decide)⟩

/-- C6: on a fully free 50-block manager `allocate(10, 5)` succeeds and
leaves free extents exactly `[0:10)` and `[15:50)`; the subsequent
`allocate(0, 10)` and `allocate(15, 35)` both succeed and leave the free
list empty. -/
theorem C6_split_correctness :
    (allocate (HybridSpaceManager.init 50) 10 5).2 = (true, 10) ∧
    (allocate (HybridSpaceManager.init 50) 10 5).1.free_list = [⟨0, 10⟩, ⟨15, 35⟩] ∧
    (allocate (allocate (HybridSpaceManager.init 50) 10 5).1 0 10).2 = (true, 0) ∧
    (allocate (allocate (allocate (HybridSpaceManager.init 50) 10 5).1 0 10).1
      15 35).2 = (true, 15) ∧
    (allocate (allocate (allocate (HybridSpaceManager.init 50) 10 5).1 0 10).1
      15 35).1.free_list = [] := by
  refine ⟨by decide, by decide, by decide, by decide, by decide⟩

/-- C10: a zero-count allocation is accepted, not rejected: for every
manager state and every `start` with `0 ≤ start ≤ disk_size`,
`allocate(start, 0)` returns success with the requested start value and
leaves every bitmap entry unchanged. -/
theorem C10_zero_count_allocate (m : HybridSpaceManager) (s : Int) (hs : 0 ≤ s)
    (hsd : s ≤ m.disk_size) :
    (allocate m s 0).2 = (true, s) ∧ (allocate m s 0).1.bitmap = m.bitmap := by
  have hany : anyAllocated m.bitmap s (s + 0) = false :=
    anyAllocated_empty_range _ _ _ (by omega)
  rw [allocate_success_eq m s 0 (by omega) hany]
  refine ⟨rfl, ?_⟩
  show setRange 1 s (s + 0) m.bitmap = m.bitmap
  exact setRange_empty_range 1 s (s + 0) m.bitmap (by omega)

/-- Witness for C10 at `start = 7` on a fresh 50-block manager. -/
theorem C10_zero_count_allocate_witness :
    (allocate (HybridSpaceManager.init 50) 7 0).2 = (true, 7) ∧
    (allocate (HybridSpaceManager.init 50) 7 0).1.bitmap =
      (HybridSpaceManager.init 50).bitmap :=
  C10_zero_count_allocate (HybridSpaceManager.init 50) 7 (by norm_num) (by decide)

/-- C5: in any invariant-satisfying state whose free list contains two
consecutive (hence disjoint and non-adjacent) free extents `e1` and `e2`,
deallocating the gap that exactly bridges them — start `e1.start + e1.size`,
count `e2.start - (e1.start + e1.size)` — succeeds and replaces the two
extents by the single merged extent spanning from `e1.start` to
`e2.start + e2.size`. -/
theorem C5_bridge_merge (m : HybridSpaceManager) (pre post : List FreeExtent)
    (e1 e2 : FreeExtent) (hInv : ManagerInv m)
    (hfl : m.free_list = pre ++ e1 :: e2 :: post) :
    (deallocate m (e1.start + e1.size) (e2.start - (e1.start + e1.size))).2 = true ∧
    (deallocate m (e1.start + e1.size) (e2.start - (e1.start + e1.size))).1.free_list =
      pre ++ ⟨e1.start, e1.size + (e2.start - (e1.start + e1.size)) + e2.size⟩ :: post := by
  obtain ⟨hd, hlen, hvals, hcan, hbd, hcov, hgr⟩ := hInv
  rw [hfl] at hcan hbd
  obtain ⟨hcpre, hcrest, hcross⟩ := (canonical_append_iff _ _).1 hcan
  obtain ⟨he1rest, he1pos, hcrest2⟩ := (canonical_cons_iff _ _).1 hcrest
  obtain ⟨he2post, he2pos, hcpost⟩ := (canonical_cons_iff _ _).1 hcrest2
  have hgap : e1.start + e1.size < e2.start := he1rest e2 (List.mem_cons_self e2 post)
  have hn : 1 ≤ e2.start - (e1.start + e1.size) := by omega
  have hb1 := hbd e1 (List.mem_append_right _ (List.mem_cons_self _ _))
  have hb2 := hbd e2 (List.mem_append_right _
    (List.mem_cons_of_mem _ (List.mem_cons_self _ _)))
  rw [deallocate_success_eq m _ _ (by omega)]
  refine ⟨rfl, ?_⟩
  show deallocInsert _ _ m.free_list = _
  rw [hfl]
  have hdisj : ∀ j : Int, e1.start + e1.size ≤ j →
      j < (e1.start + e1.size) + (e2.start - (e1.start + e1.size)) →
      coveredB (pre ++ e1 :: e2 :: post) j = false := by
    intro j h1 h2
    rw [← Bool.not_eq_true, coveredB_eq_true]
    rintro ⟨f, hf, hf1, hf2⟩
    rcases List.mem_append.1 hf with hf | hf
    · have := hcross f hf e1 (List.mem_cons_self _ _)
      omega
    rcases List.mem_cons.1 hf with rfl | hf
    · omega
    rcases List.mem_cons.1 hf with rfl | hf
    · omega
    · have := he2post f hf
      omega
  obtain ⟨k1, k2, -⟩ := deallocInsert_spec _ hcan _ _ hn hdisj
  refine canonical_covered_unique _ _ k1 ?_ ?_
  · apply (canonical_append_iff _ _).2
    refine ⟨hcpre, ?_, ?_⟩
    · apply (canonical_cons_iff _ _).2
      refine ⟨?_, ?_, hcpost⟩
      · intro f hf
        have := he2post f hf
        show e1.start + (e1.size + (e2.start - (e1.start + e1.size)) + e2.size) < f.start
        omega
      · show (0 : Int) < e1.size + (e2.start - (e1.start + e1.size)) + e2.size
        omega
    · intro a ha b hb
      rcases List.mem_cons.1 hb with rfl | hb
      · show a.start + a.size < e1.start
        exact hcross a ha e1 (List.mem_cons_self _ _)
      · exact hcross a ha b (List.mem_cons_of_mem _ (List.mem_cons_of_mem _ hb))
  · intro j
    apply bool_eq_of_iff (k2 j)
    have hL : coveredB (pre ++ (⟨e1.start,
        e1.size + (e2.start - (e1.start + e1.size)) + e2.size⟩ : FreeExtent) :: post) j =
        (coveredB pre j || (decide (e1.start ≤ j ∧ j < e1.start +
          (e1.size + (e2.start - (e1.start + e1.size)) + e2.size)) ||
          coveredB post j)) := by
      rw [coveredB_append, coveredB_cons]
    have hR : coveredB (pre ++ e1 :: e2 :: post) j =
        (coveredB pre j || (decide (e1.start ≤ j ∧ j < e1.start + e1.size) ||
          (decide (e2.start ≤ j ∧ j < e2.start + e2.size) || coveredB post j))) := by
      rw [coveredB_append, coveredB_cons, coveredB_cons]
    rw [hL, hR]
    simp only [Bool.or_eq_true, decide_eq_true_eq]
    constructor
    · rintro (h | h | h)
      · exact Or.inl (Or.inl h)
      · by_cases hj1 : j < e1.start + e1.size
        · exact Or.inl (Or.inr (Or.inl ⟨h.1, hj1⟩))
        · by_cases hj2 : j < e2.start
          · exact Or.inr ⟨by omega, by omega⟩
          · exact Or.inl (Or.inr (Or.inr (Or.inl ⟨by omega, by omega⟩)))
      · exact Or.inl (Or.inr (Or.inr (Or.inr h)))
    · rintro ((h | h | h | h) | h)
      · exact Or.inl h
      · exact Or.inr (Or.inl ⟨h.1, by omega⟩)
      · exact Or.inr (Or.inl ⟨by omega, by omega⟩)
      · exact Or.inr (Or.inr h)
      · exact Or.inr (Or.inl ⟨by omega, by omega⟩)

/-- Witness for C5: on a 15-block device with free extents `[0:5)` and
`[10:15)` (obtained by `allocate(5, 5)` on a fresh manager),
`deallocate(5, 5)` succeeds and yields the single extent `[0:15)`. -/
theorem C5_bridge_merge_witness :
    (deallocate (allocate (HybridSpaceManager.init 15) 5 5).1 5 5).2 = true ∧
    (deallocate (allocate (HybridSpaceManager.init 15) 5 5).1 5 5).1.free_list =
      [⟨0, 15⟩] := by
  have h := C5_bridge_merge (allocate (HybridSpaceManager.init 15) 5 5).1 [] []
    ⟨0, 5⟩ ⟨10, 5⟩ (by decide) (by decide)
  exact h

/-- Counterexample to C7 as stated: from an invariant-satisfying 20-block
state with free extent `[5:15)`, `allocate(6, -3)` succeeds (the code never
checks the count), and the subsequent `deallocate(6, -3)` does not restore
the free list's covered ranges: block 3 was not covered before the pair of
calls but is covered afterwards. -/
theorem C7_counterexample :
    ManagerInv demoState20 ∧
    (allocate demoState20 6 (-3)).2.1 = true ∧
    coveredB demoState20.free_list 3 = false ∧
    coveredB (deallocate (allocate demoState20 6 (-3)).1 6 (-3)).1.free_list 3 = true := by
  refine ⟨by decide, by decide, by decide, by decide⟩

/-- C7 amended (restricted to positive counts, the only counts the spec's
preconditions admit): for every invariant-satisfying state and every
`(start, n)` with `n ≥ 1` for which `allocate(start, n)` succeeds,
immediately calling `deallocate(start, n)` restores the bitmap exactly and
restores the free list exactly (hence the same covered ranges). -/
theorem C7_roundtrip (m : HybridSpaceManager) (s n : Int) (hInv : ManagerInv m)
    (hn : 1 ≤ n) (hsucc : (allocate m s n).2.1 = true) :
    (deallocate (allocate m s n).1 s n).1.bitmap = m.bitmap ∧
    (deallocate (allocate m s n).1 s n).1.free_list = m.free_list := by
  have hc1 : ¬(s < 0 ∨ s + n > m.disk_size) := by
    intro hx
    rw [show allocate m s n = (m, false, -1) from by unfold allocate; rw [if_pos hx]]
      at hsucc
    simp at hsucc
  have hany : anyAllocated m.bitmap s (s + n) = false := by
    by_contra hx
    rw [Bool.not_eq_false] at hx
    rw [show allocate m s n = (m, false, -1) from by
      unfold allocate
      rw [if_neg hc1, if_pos hx]] at hsucc
    simp at hsucc
  obtain ⟨hd, hlen, hvals, hcan, hbd, hcov, hgr⟩ := hInv
  rw [allocate_success_eq m s n hc1 hany]
  rw [deallocate_success_eq _ s n (by show ¬(s + n > m.disk_size ∨ s < 0); omega)]
  have hfree0 : ∀ (k : Nat), k < m.bitmap.length → s ≤ (k : Int) → (k : Int) < s + n →
      m.bitmap.getD k 1 = 0 := by
    intro k hk h1 h2
    have hne := anyAllocAux_false_forall s (s + n) m.bitmap 0 hany k hk
      (by omega) (by omega)
    have hmem : m.bitmap.getD k 1 ∈ m.bitmap := by
      rw [List.getD_eq_getElem _ _ hk]
      exact List.getElem_mem _
    rcases hvals _ hmem with h0 | h1'
    · exact h0
    · exact absurd h1' hne
  constructor
  · show setRange 0 s (s + n) (setRange 1 s (s + n) m.bitmap) = m.bitmap
    apply setRange_restore
    intro k hk h1 h2
    have := hfree0 k hk h1 h2
    rwa [List.getD_eq_getElem _ _ hk] at this
  · show deallocInsert s n (allocRemove s n m.free_list) = m.free_list
    apply dealloc_alloc_roundtrip m.free_list hcan s n hn
    intro j h1 h2
    have hjl : j.toNat < m.bitmap.length := by rw [hlen]; omega
    have hiff := hcov j.toNat hjl
    rw [show ((j.toNat : Nat) : Int) = j by omega] at hiff
    apply hiff.1
    have hbg : bitGet m.bitmap j = m.bitmap.getD j.toNat 1 := by
      unfold bitGet
      rw [if_pos (by omega)]
    rw [hbg]
    exact hfree0 j.toNat hjl (by omega) (by omega)

/-- Witness for the amended C7: allocating then deallocating `(10, 5)` on a
fresh 50-block manager restores bitmap and free list. -/
theorem C7_roundtrip_witness :
    (deallocate (allocate (HybridSpaceManager.init 50) 10 5).1 10 5).1.bitmap =
      (HybridSpaceManager.init 50).bitmap ∧
    (deallocate (allocate (HybridSpaceManager.init 50) 10 5).1 10 5).1.free_list =
      (HybridSpaceManager.init 50).free_list :=
  C7_roundtrip (HybridSpaceManager.init 50) 10 5 (by decide) (by norm_num) (by decide)

/-- C9: deallocation never verifies prior allocation.  For every
invariant-satisfying state and every in-range request (`n ≥ 1`,
`0 ≤ start`, `start + n ≤ disk_size`), `deallocate(start, n)` returns
success regardless of the prior contents of the targeted blocks, and
afterwards every targeted block is free in the bitmap and covered by the
free list (a double free is silently merged as if newly freed). -/
theorem C9_dealloc_ignores_occupancy (m : HybridSpaceManager) (s n : Int)
    (hInv : ManagerInv m) (hn : 1 ≤ n) (hs : 0 ≤ s) (hsn : s + n ≤ m.disk_size) :
    (deallocate m s n).2 = true ∧
    (∀ j : Int, s ≤ j → j < s + n → bitGet (deallocate m s n).1.bitmap j = 0) ∧
    (∀ j : Int, s ≤ j → j < s + n → coveredB (deallocate m s n).1.free_list j = true) := by
  obtain ⟨hd, hlen, hvals, hcan, hbd, hcov, hgr⟩ := hInv
  rw [deallocate_success_eq m s n (by omega)]
  refine ⟨rfl, ?_, ?_⟩
  · intro j h1 h2
    show bitGet (setRange 0 s (s + n) m.bitmap) j = 0
    rw [bitGet_setRange, if_pos ⟨h1, h2, by omega, by rw [hlen]; omega⟩]
  · intro j h1 h2
    show coveredB (deallocInsert s n m.free_list) j = true
    exact deallocInsert_covers m.free_list
      (fun e he => le_of_lt (hcan.2 e he)) s n hn j h1 h2

/-- Witness for C9: a double free — `deallocate(5, 5)` on a fresh,
fully-free 50-block manager — succeeds and block 5 stays free and
covered. -/
theorem C9_dealloc_ignores_occupancy_witness :
    (deallocate (HybridSpaceManager.init 50) 5 5).2 = true ∧
    bitGet (deallocate (HybridSpaceManager.init 50) 5 5).1.bitmap 5 = 0 ∧
    coveredB (deallocate (HybridSpaceManager.init 50) 5 5).1.free_list 5 = true := by
  have h := C9_dealloc_ignores_occupancy (HybridSpaceManager.init 50) 5 5 (by decide)
    (by norm_num) (by norm_num) (by decide)
  exact ⟨h.1, h.2.1 5 le_rfl (by norm_num), h.2.2 5 le_rfl (by norm_num)⟩

/-- C8: for every bitmap, the group sequence derived by `update_groups`'s
single left-to-right scan consists of exactly the maximal contiguous runs
of free blocks, as `(start, length)` pairs in ascending order of start; the
derivation is a pure function of the bitmap alone. -/
theorem C8_groups_are_maximal_runs (b : List Int) :
    (∀ e : FreeExtent, e ∈ update_groups b ↔ IsMaximalFreeRun b e) ∧
    List.Chain' (fun u v : FreeExtent => u.start < v.start) (update_groups b) := by
  obtain ⟨⟨hpw, hpos⟩, hcov⟩ := update_groups_spec b
  have hforward : ∀ e ∈ update_groups b, IsMaximalFreeRun b e := by
    intro e he
    refine ⟨hpos e he, ?_, ?_, ?_⟩
    · intro j h1 h2
      exact (hcov j).1 (coveredB_of_mem he h1 h2)
    · intro hx
      have hc := (hcov (e.start - 1)).2 hx
      rcases (coveredB_eq_true _ _).1 hc with ⟨f, hf, hf1, hf2⟩
      rcases pairwise_mem_rel hpw e he f hf with heq | hrel | hrel
      · subst heq
        omega
      · have := hpos e he
        omega
      · omega
    · intro hx
      have hc := (hcov (e.start + e.size)).2 hx
      rcases (coveredB_eq_true _ _).1 hc with ⟨f, hf, hf1, hf2⟩
      rcases pairwise_mem_rel hpw e he f hf with heq | hrel | hrel
      · subst heq
        omega
      · omega
      · have := hpos e he
        omega
  refine ⟨?_, ?_⟩
  · intro e
    constructor
    · exact hforward e
    · rintro ⟨hsz, hrun, hleft, hright⟩
      have hfree : bitGet b e.start = 0 := hrun e.start le_rfl (by omega)
      have hcv : coveredB (update_groups b) e.start = true := (hcov e.start).2 hfree
      rcases (coveredB_eq_true _ _).1 hcv with ⟨f, hf, hf1, hf2⟩
      obtain ⟨hfsz, hfrun, hfl, hfr⟩ := hforward f hf
      have hse : f.start = e.start := by
        by_contra hne
        rcases lt_or_gt_of_ne hne with hlt | hgt
        · exact hleft (hfrun _ (by omega) (by omega))
        · omega
      have hee : f.start + f.size = e.start + e.size := by
        by_contra hne
        rcases lt_or_gt_of_ne hne with hlt | hgt
        · exact hfr (hrun _ (by omega) (by omega))
        · exact hright (hfrun _ (by omega) (by omega))
      have hfe : f = e := by
        have h2 : f.size = e.size := by omega
        calc f = ⟨f.start, f.size⟩ := rfl
          _ = ⟨e.start, e.size⟩ := by rw [hse, h2]
          _ = e := rfl
      rw [← hfe]
      exact hf
  · have hpw2 : List.Pairwise (fun u v : FreeExtent => u.start < v.start)
        (update_groups b) := by
      apply List.Pairwise.imp_of_mem ?_ hpw
      intro u v hu hv hr
      have := hpos u hu
      omega
    exact hpw2.chain'

/-- Witness for C8 at the concrete bitmap `[0, 0, 1, 0]`: `(0, 2)` is a
group exactly because it is a maximal free run. -/
theorem C8_groups_are_maximal_runs_witness :
    ((⟨0, 2⟩ : FreeExtent) ∈ update_groups [0, 0, 1, 0] ↔
      IsMaximalFreeRun [0, 0, 1, 0] ⟨0, 2⟩) :=
  (C8_groups_are_maximal_runs [0, 0, 1, 0]).1 ⟨0, 2⟩
